import Mathlib

/-!
Verification of the Tangram scene import resolver (scene/importer.cpp,
util/asset.cpp).

The YAML document tree, the deep merge, the URL rewriter, the recursive
walk over the map of fetched scenes, the asset registry and the
zip-backed asset reader are shallowly embedded below, translated from the
C++ sources.  External collaborators that the importer only consumes (the
URL resolver, the platform, the YAML scalar decoders and the miniz zip
extractor) are passed in as function parameters, mirroring the interfaces
the code uses.
-/

set_option maxHeartbeats 1000000

mutual
/-- A YAML document node as exposed by yaml-cpp: null, scalar, sequence or
mapping.  Mappings are ordered key/value lists, matching yaml-cpp
insertion and iteration order. -/
inductive YamlNode where
  | null : YamlNode
  | scalar (s : String) : YamlNode
  | sequence (xs : NodeSeq) : YamlNode
  | mapping (m : NodeMap) : YamlNode
/-- The elements of a sequence node, in order. -/
inductive NodeSeq where
  | nil : NodeSeq
  | cons (hd : YamlNode) (tl : NodeSeq) : NodeSeq
/-- The entries of a mapping node, in order. -/
inductive NodeMap where
  | nil : NodeMap
  | cons (k : String) (v : YamlNode) (tl : NodeMap) : NodeMap
end

/-- Builds a mapping entry list from a Lean list (notation helper for
concrete documents). -/
def nmap : List (String × YamlNode) → NodeMap
  | [] => .nil
  | (k, v) :: rest => .cons k v (nmap rest)

/-- Builds a sequence node list from a Lean list (notation helper for
concrete documents). -/
def nseq : List YamlNode → NodeSeq
  | [] => .nil
  | v :: rest => .cons v (nseq rest)

/-- The four node kinds, the result of `Node::Type()` as far as
the importer distinguishes them. -/
inductive NodeTy where
  | tNull | tScalar | tSequence | tMapping
deriving DecidableEq, Repr

/-- `Node::Type()` of a node. -/
def nodeTy : YamlNode → NodeTy
  | .null => .tNull
  | .scalar _ => .tScalar
  | .sequence _ => .tSequence
  | .mapping _ => .tMapping

/-- Mapping lookup: the node stored at key `k` if present (yaml-cpp
`node[k]` being a defined node). -/
def getKey : NodeMap → String → Option YamlNode
  | .nil, _ => none
  | .cons k' v rest, k => if k' = k then some v else getKey rest k

/-- Keyed assignment on a mapping: replaces the value at the first
occurrence of `k`, or appends a new entry, matching assignment through
yaml-cpp `node[k]`. -/
def setKey : NodeMap → String → YamlNode → NodeMap
  | .nil, k, v => .cons k v .nil
  | .cons k' v' rest, k, v =>
    if k' = k then .cons k v rest else .cons k' v' (setKey rest k v)

/-- `Node::remove(k)`: drops the entry at key `k`. -/
def removeKey : NodeMap → String → NodeMap
  | .nil, _ => .nil
  | .cons k' v' rest, k => if k' = k then rest else .cons k' v' (removeKey rest k)

/-- Lookup through a node that may or may not be a mapping: `node[k]` is
undefined on scalars, sequences and null nodes. -/
def getKeyN : YamlNode → String → Option YamlNode
  | .mapping m, k => getKey m k
  | _, _ => none

/-- Keyed assignment through a node known to be a mapping; other nodes
are left unchanged (the importer only writes back into mappings it
read). -/
def setKeyN : YamlNode → String → YamlNode → YamlNode
  | .mapping m, k, v => .mapping (setKey m k v)
  | n, _, _ => n

/-- Log events emitted on the importer paths modelled here: the
cyclic-import error of `importScenesRecursive` and the type-mismatch
notice of `mergeMapFields`. -/
inductive LogMsg where
  | cyclicImport (url : String) : LogMsg
  | mergeTypeMismatch (key : String) : LogMsg
deriving DecidableEq, Repr

/-- One call to `Importer::createSceneAsset(resolved, relative, base,
zipData)`.  The call sites inside `getResolvedImportUrls` and
`resolveSceneUrls` always omit the zip-data argument, so it defaults to
the empty buffer. -/
structure AssetCall where
  resolved : String
  relative : String
  base : String
  zipData : List Nat := []
deriving DecidableEq, Repr

/-- The external collaborators consumed by the importer: `Url::resolved`
against a base, `Url::isAbsolute`, `Platform::resolveAssetPath`, and the
yaml-cpp tentative scalar decoders for bool and double. -/
structure UrlEnv where
  resolve : String → String → String
  isAbsolute : String → Bool
  assetPath : String → String
  decodeBool : String → Bool
  decodeNumber : String → Bool

/-- `s.compare(0, 7, "global.") == 0`: the string starts with the seven
characters `global.`. -/
def startsWithGlobalDot (s : String) : Bool := s.toList.take 7 == "global.".toList

/-- `nodeIsPotentialUrl`: the node is a defined non-null scalar whose
string does not begin with `global.`. -/
def nodeIsPotentialUrl : YamlNode → Bool
  | .scalar s => !(startsWithGlobalDot s)
  | _ => false

/-- `textures[s]` is a defined node: `textures` is a mapping that
contains the key `s`.  An undefined or non-mapping `textures` node never
has keys. -/
def texturesHasKey (textures : Option YamlNode) (s : String) : Bool :=
  match textures with
  | some (.mapping tm) => (getKey tm s).isSome
  | _ => false

/-- `nodeIsTextureUrl`: a potential URL whose string decodes as neither
bool nor number and does not name a key of the `textures` mapping. -/
def nodeIsTextureUrl (env : UrlEnv) (node : YamlNode) (textures : Option YamlNode) : Bool :=
  nodeIsPotentialUrl node &&
    match node with
    | .scalar s => !(env.decodeBool s) && !(env.decodeNumber s) && !(texturesHasKey textures s)
    | _ => false

/-- Applies an entry-value transformation to every entry of a mapping, in
order, collecting the asset-registration calls it makes. -/
def mapEntriesCalls (f : YamlNode → YamlNode × List AssetCall) : NodeMap → NodeMap × List AssetCall
  | .nil => (.nil, [])
  | .cons k v rest =>
    let r := f v
    let rr := mapEntriesCalls f rest
    (.cons k r.1 rr.1, r.2 ++ rr.2)

/-- Applies an element transformation to every element of a sequence, in
order, collecting the asset-registration calls it makes. -/
def mapSeqCalls (f : YamlNode → YamlNode × List AssetCall) : NodeSeq → NodeSeq × List AssetCall
  | .nil => (.nil, [])
  | .cons v rest =>
    let r := f v
    let rr := mapSeqCalls f rest
    (.cons r.1 rr.1, r.2 ++ rr.2)

/-- The body of the `textures` loop of `resolveSceneUrls` for one texture
entry: a potential-URL scalar under `url` is resolved against the base
and registered. -/
def resolveTexEntry (env : UrlEnv) (base : String) (v : YamlNode) : YamlNode × List AssetCall :=
  match v with
  | .mapping em =>
    match getKey em "url" with
    | some (.scalar s) =>
      if nodeIsPotentialUrl (.scalar s) then
        (.mapping (setKey em "url" (.scalar (env.resolve s base))),
         [{ resolved := env.resolve s base, relative := s, base := base }])
      else (v, [])
    | _ => (v, [])
  | _ => (v, [])

/-- A top-level pass of `resolveSceneUrls`: when the named top-level
entry is a mapping, its entry list is transformed in place; otherwise
(absent, null, scalar or sequence) the pass does nothing. -/
def sectionPass (key : String) (f : NodeMap → NodeMap × List AssetCall)
    (root : YamlNode) : YamlNode × List AssetCall :=
  match getKeyN root key with
  | some (.mapping m) =>
    let r := f m
    (setKeyN root key (.mapping r.1), r.2)
  | _ => (root, [])

/-- The `textures` pass of `resolveSceneUrls`. -/
def resolveTextures (env : UrlEnv) (base : String) (root : YamlNode) : YamlNode × List AssetCall :=
  sectionPass "textures" (mapEntriesCalls (resolveTexEntry env base)) root

/-- One material property (`emission`, `ambient`, `diffuse`, `specular`
or `normal`): when the property is a mapping, a texture-URL scalar under
its `texture` key is resolved and registered; a non-mapping property is
skipped. -/
def resolveMatProp (env : UrlEnv) (base : String) (textures : Option YamlNode)
    (v : YamlNode) : YamlNode × List AssetCall :=
  match v with
  | .mapping pm =>
    match getKey pm "texture" with
    | some (.scalar t) =>
      if nodeIsTextureUrl env (.scalar t) textures then
        (.mapping (setKey pm "texture" (.scalar (env.resolve t base))),
         [{ resolved := env.resolve t base, relative := t, base := base }])
      else (v, [])
    | _ => (v, [])
  | _ => (v, [])

/-- The property names visited under `style.material`, in source order. -/
def matProps : List String := ["emission", "ambient", "diffuse", "specular", "normal"]

/-- One iteration of the `style.material` property loop: a property
present in the accumulated material mapping is processed by
`resolveMatProp` and written back; an absent one is skipped. -/
def resolveMatStep (env : UrlEnv) (base : String) (textures : Option YamlNode)
    (acc : NodeMap × List AssetCall) (p : String) : NodeMap × List AssetCall :=
  match getKey acc.1 p with
  | some v =>
    let r := resolveMatProp env base textures v
    (setKey acc.1 p r.1, acc.2 ++ r.2)
  | none => acc

/-- The `style.material` pass: each named property present in the
material mapping is processed by `resolveMatProp`, in source order. -/
def resolveMaterial (env : UrlEnv) (base : String) (textures : Option YamlNode)
    (mm : NodeMap) : NodeMap × List AssetCall :=
  matProps.foldl (resolveMatStep env base textures) (mm, [])

/-- One element of a sequence-valued shader uniform: scalar elements that
are texture URLs are resolved and registered. -/
def resolveUniformItem (env : UrlEnv) (base : String) (textures : Option YamlNode)
    (e : YamlNode) : YamlNode × List AssetCall :=
  match e with
  | .scalar t =>
    if nodeIsTextureUrl env (.scalar t) textures then
      (.scalar (env.resolve t base),
       [{ resolved := env.resolve t base, relative := t, base := base }])
    else (e, [])
  | _ => (e, [])

/-- One shader uniform value: a texture-URL scalar is resolved and
registered; a sequence has each scalar element tested independently;
other values are left alone. -/
def resolveUniformVal (env : UrlEnv) (base : String) (textures : Option YamlNode)
    (v : YamlNode) : YamlNode × List AssetCall :=
  if nodeIsTextureUrl env v textures then
    match v with
    | .scalar t =>
      (.scalar (env.resolve t base),
       [{ resolved := env.resolve t base, relative := t, base := base }])
    | _ => (v, [])
  else
    match v with
    | .sequence xs =>
      let r := mapSeqCalls (resolveUniformItem env base textures) xs
      (.sequence r.1, r.2)
    | _ => (v, [])

/-- The `style.shaders.uniforms` pass over a style entry list: visited
only when `shaders` is a mapping whose `uniforms` entry is a mapping. -/
def resolveShaders (env : UrlEnv) (base : String) (textures : Option YamlNode)
    (sm : NodeMap) : NodeMap × List AssetCall :=
  match getKey sm "shaders" with
  | some (.mapping shm) =>
    match getKey shm "uniforms" with
    | some (.mapping um) =>
      let r := mapEntriesCalls (resolveUniformVal env base textures) um
      (setKey sm "shaders" (.mapping (setKey shm "uniforms" (.mapping r.1))), r.2)
    | _ => (sm, [])
  | _ => (sm, [])

/-- The `style.texture` step of the styles loop: a texture-URL scalar
under the style's `texture` key is resolved against the base and
registered. -/
def resolveStyleTexture (env : UrlEnv) (base : String) (textures : Option YamlNode)
    (sm0 : NodeMap) : NodeMap × List AssetCall :=
  match getKey sm0 "texture" with
  | some (.scalar t) =>
    if nodeIsTextureUrl env (.scalar t) textures then
      (setKey sm0 "texture" (.scalar (env.resolve t base)),
       [{ resolved := env.resolve t base, relative := t, base := base }])
    else (sm0, [])
  | _ => (sm0, [])

/-- The body of the `styles` loop of `resolveSceneUrls` for one style
entry.  A non-mapping style is skipped.  The `texture` key is processed
first; then, if `material` is present but not a mapping, the `continue`
in the source skips the rest of this style entry, including the shaders
pass; otherwise the material properties and then the shader uniforms are
processed. -/
def resolveStyleEntry (env : UrlEnv) (base : String) (textures : Option YamlNode)
    (style : YamlNode) : YamlNode × List AssetCall :=
  match style with
  | .mapping sm0 =>
    let step1 := resolveStyleTexture env base textures sm0
    match getKey step1.1 "material" with
    | some (.mapping mm) =>
      let rm := resolveMaterial env base textures mm
      let sm2 := setKey step1.1 "material" (.mapping rm.1)
      let rs := resolveShaders env base textures sm2
      (.mapping rs.1, step1.2 ++ rm.2 ++ rs.2)
    | some _ => (.mapping step1.1, step1.2)
    | none =>
      let rs := resolveShaders env base textures step1.1
      (.mapping rs.1, step1.2 ++ rs.2)
  | _ => (style, [])

/-- One data-source entry: a potential-URL scalar under `url` is resolved
against the base; a non-absolute result is passed through the platform's
`resolveAssetPath`.  No asset is registered for data sources. -/
def resolveSourceEntry (env : UrlEnv) (base : String) (v : YamlNode) : YamlNode × List AssetCall :=
  match v with
  | .mapping em =>
    match getKey em "url" with
    | some (.scalar s) =>
      if nodeIsPotentialUrl (.scalar s) then
        let r := env.resolve s base
        (.mapping (setKey em "url" (.scalar (if env.isAbsolute r then r else env.assetPath r))), [])
      else (v, [])
    | _ => (v, [])
  | _ => (v, [])

/-- The `sources` pass of `resolveSceneUrls`. -/
def resolveSources (env : UrlEnv) (base : String) (root : YamlNode) : YamlNode × List AssetCall :=
  sectionPass "sources" (mapEntriesCalls (resolveSourceEntry env base)) root

/-- One font face given as a mapping: a potential-URL scalar under `url`
is resolved against the base and registered. -/
def resolveFontFace (env : UrlEnv) (base : String) (v : YamlNode) : YamlNode × List AssetCall :=
  match v with
  | .mapping fm =>
    match getKey fm "url" with
    | some (.scalar s) =>
      if nodeIsPotentialUrl (.scalar s) then
        (.mapping (setKey fm "url" (.scalar (env.resolve s base))),
         [{ resolved := env.resolve s base, relative := s, base := base }])
      else (v, [])
    | _ => (v, [])
  | _ => (v, [])

/-- One entry of the `fonts` mapping: either a single font face mapping,
or a sequence of font face mappings. -/
def resolveFontEntry (env : UrlEnv) (base : String) (v : YamlNode) : YamlNode × List AssetCall :=
  match v with
  | .mapping _ => resolveFontFace env base v
  | .sequence xs =>
    let r := mapSeqCalls (resolveFontFace env base) xs
    (.sequence r.1, r.2)
  | _ => (v, [])

/-- The `fonts` pass of `resolveSceneUrls`: visited only when `fonts` is
a mapping. -/
def resolveFonts (env : UrlEnv) (base : String) (root : YamlNode) : YamlNode × List AssetCall :=
  sectionPass "fonts" (mapEntriesCalls (resolveFontEntry env base)) root

/-- The `styles` pass of `resolveSceneUrls`, against the given `textures`
node. -/
def resolveStyles (env : UrlEnv) (base : String) (textures : Option YamlNode)
    (root : YamlNode) : YamlNode × List AssetCall :=
  sectionPass "styles" (mapEntriesCalls (resolveStyleEntry env base textures)) root

/-- `Importer::resolveSceneUrls(root, base)`: rewrites embedded resource
URLs in the accumulated root against `base` and collects the
asset-registration calls made along the way.  The `textures` node used
for the texture-name test in the styles pass is the live node after the
textures pass (its key set is unchanged by the pass). -/
def resolveSceneUrls (env : UrlEnv) (base : String) (root : YamlNode) : YamlNode × List AssetCall :=
  let t := resolveTextures env base root
  let textures := getKeyN t.1 "textures"
  let s := resolveStyles env base textures t.1
  let so := resolveSources env base s.1
  let f := resolveFonts env base so.1
  (f.1, t.2 ++ s.2 ++ so.2 ++ f.2)

mutual
/-- One loop iteration of `Importer::mergeMapFields` for the import entry
`(k, src)`: a key absent from the target is assigned; otherwise a type
mismatch is logged, and then the destination type decides: scalar and
sequence destinations are replaced by the source, a mapping destination
recurses when the source is also a mapping and is replaced otherwise,
and a null destination falls through the switch unchanged. -/
def mergeOne (tm : NodeMap) (k : String) (src : YamlNode) : NodeMap × List LogMsg :=
  match getKey tm k with
  | none => (setKey tm k src, [])
  | some dest =>
    let lg : List LogMsg :=
      if nodeTy dest ≠ nodeTy src then [.mergeTypeMismatch k] else []
    match dest with
    | .scalar _ => (setKey tm k src, lg)
    | .sequence _ => (setKey tm k src, lg)
    | .mapping dm =>
      match src with
      | .mapping sm =>
        let inner := mergeEntries dm sm
        (setKey tm k (.mapping inner.1), lg ++ inner.2)
      | _ => (setKey tm k src, lg)
    | .null => (tm, lg)
termination_by structural src

/-- `Importer::mergeMapFields` over the entry lists of the two mappings:
the import entries are processed in order by `mergeOne`. -/
def mergeEntries (tm0 im : NodeMap) : NodeMap × List LogMsg :=
  match tm0, im with
  | tm, .nil => (tm, [])
  | tm, .cons k src rest =>
    let step := mergeOne tm k src
    let next := mergeEntries step.1 rest
    (next.1, step.2 ++ next.2)
termination_by structural im
end

/-- `Importer::mergeMapFields(target, import)`.  The accumulated root
starts as a default-constructed null node, which yaml-cpp turns into a
mapping on the first keyed assignment; merging a non-mapping import
iterates no entries. -/
def mergeMapFields (target imp : YamlNode) : YamlNode × List LogMsg :=
  match target, imp with
  | .mapping tm, .mapping im =>
    let r := mergeEntries tm im
    (.mapping r.1, r.2)
  | .null, .mapping im =>
    let r := mergeEntries .nil im
    (.mapping r.1, r.2)
  | t, _ => (t, [])

/-- The sequence case of `getResolvedImportUrls`: each scalar element is
resolved against the base, registered as an asset and collected, in
order. -/
def importSeqUrls (env : UrlEnv) (base : String) : NodeSeq → List String × List AssetCall
  | .nil => ([], [])
  | .cons (.scalar s) rest =>
    let r := importSeqUrls env base rest
    (env.resolve s base :: r.1,
     { resolved := env.resolve s base, relative := s, base := base } :: r.2)
  | .cons _ rest => importSeqUrls env base rest

/-- `Importer::getResolvedImportUrls(scene, base)`: reads the top-level
`import` key; a scalar yields one resolved URL, a sequence yields one per
scalar element, anything else yields none.  Each URL found is also
registered as a scene asset. -/
def getResolvedImportUrls (env : UrlEnv) (scene : YamlNode) (base : String) :
    List String × List AssetCall :=
  match getKeyN scene "import" with
  | some (.scalar s) =>
    ([env.resolve s base], [{ resolved := env.resolve s base, relative := s, base := base }])
  | some (.sequence xs) => importSeqUrls env base xs
  | _ => ([], [])

/-- `m_scenes` lookup: the parsed document stored for a URL, if any.
(`operator[]` on a missing key default-constructs a null node; the walk
then returns before using it, so a read-only lookup is behaviourally
equivalent.) -/
def sceneGet : List (String × YamlNode) → String → Option YamlNode
  | [], _ => none
  | (k', v) :: rest, k => if k' = k then some v else sceneGet rest k

/-- `m_scenes` update at an existing key (used to store a scene node
after its `import` entry has been removed in place). -/
def sceneSet : List (String × YamlNode) → String → YamlNode → List (String × YamlNode)
  | [], k, v => [(k, v)]
  | (k', v') :: rest, k, v => if k' = k then (k, v) :: rest else (k', v') :: sceneSet rest k v

/-- The keys of the scene map. -/
def sceneKeys (scenes : List (String × YamlNode)) : List String := scenes.map Prod.fst

/-- The mutable state threaded through `importScenesRecursive`: the scene
map (mutated in place when `import` keys are removed), the accumulated
root, the traversal stack (passed by reference in the source), the log
and the asset-registration calls. -/
structure ImpState where
  scenes : List (String × YamlNode)
  root : YamlNode
  stack : List String
  log : List LogMsg
  assets : List AssetCall

/-- Runs the recursion step over a list of import URLs in order,
threading the state; `none` propagates fuel exhaustion. -/
def runImportList (step : ImpState → String → Option ImpState) :
    ImpState → List String → Option ImpState
  | st, [] => some st
  | st, u :: rest =>
    match step st u with
    | none => none
    | some st' => runImportList step st' rest

/-- One unfolding of `Importer::importScenesRecursive(root, cur, stack)`,
with `recur` standing for the recursive calls on the imports.  A URL
already on the stack logs a cycle error and returns without merging.
Otherwise the URL is pushed; a missing, null or non-mapping scene node
returns at once — without popping, exactly as the early returns in the
source do.  Otherwise the resolved import URLs are collected, the
`import` key is removed in place, the imports are walked in order, the
stack is popped, the scene is merged into the root, and the root's URLs
are resolved against the current URL. -/
def importSceneStep (env : UrlEnv) (recur : ImpState → String → Option ImpState)
    (st : ImpState) (cur : String) : Option ImpState :=
  if cur ∈ st.stack then
    some { st with log := st.log ++ [.cyclicImport cur] }
  else
    let stack1 := st.stack ++ [cur]
    match sceneGet st.scenes cur with
    | none => some { st with stack := stack1 }
    | some sceneNode =>
      match sceneNode with
      | .mapping m =>
        let imp := getResolvedImportUrls env (.mapping m) cur
        let m' := removeKey m "import"
        let st1 : ImpState :=
          { st with scenes := sceneSet st.scenes cur (.mapping m'),
                    stack := stack1,
                    assets := st.assets ++ imp.2 }
        match runImportList recur st1 imp.1 with
        | none => none
        | some st2 =>
          let merged := mergeMapFields st2.root (.mapping m')
          let resolved := resolveSceneUrls env cur merged.1
          some { st2 with stack := st2.stack.dropLast,
                          root := resolved.1,
                          log := st2.log ++ merged.2,
                          assets := st2.assets ++ resolved.2 }
      | _ => some { st with stack := stack1 }

/-- `Importer::importScenesRecursive`, driven by recursion fuel: `fuel`
bounds the depth of the walk, and `none` means the bound was hit.  The
depth of the actual walk is bounded by the number of scene URLs not yet
on the stack, so sufficient fuel always exists. -/
def importScenesRecursive (env : UrlEnv) (fuel : Nat) (st : ImpState) (cur : String) :
    Option ImpState :=
  match fuel with
  | 0 => none
  | n + 1 => importSceneStep env (importScenesRecursive env n) st cur
termination_by structural fuel

/-- The characters of `s`, starting at position `i`, begin with `pat`. -/
def subOccursAt (pat s : List Char) (i : Nat) : Bool := (s.drop i).take pat.length == pat

/-- `std::string::rfind(pat)`: the largest position at which `pat` occurs
in `s`, or `none` for `npos`. -/
def rfindIdx (s pat : List Char) : Option Nat :=
  ((List.range (s.length + 1)).filter (subOccursAt pat s)).getLast?

/-- `rfind` on strings. -/
def strRfind (s pat : String) : Option Nat := rfindIdx s.toList pat.toList

/-- `std::string::substr(pos, len)`: `none` models the `std::out_of_range`
exception thrown when `pos` exceeds the string length. -/
def substrFrom (s : String) (pos len : Nat) : Option String :=
  if pos ≤ s.length then some (String.mk ((s.toList.drop pos).take len)) else none

/-- `getBundledPath(url)` (importer.cpp lines 19-32).  A URL without
`.zip` is returned unchanged.  Otherwise `loc := rfind("/")` is computed,
but the guard that follows re-checks `extLoc` instead of `loc`, so when
the URL has no `/` the call reaches `substr(npos, ...)`, which throws —
modelled as `none`. -/
def getBundledPath (url : String) : Option String :=
  match strRfind url ".zip" with
  | none => some url
  | some extLoc =>
    match strRfind url "/" with
    | some loc => (substrFrom url loc (extLoc - loc)).map (fun t => t ++ ".yaml")
    | none => none

/-- The `.zip` suffix test of the coordinator main loop
(`urlLength > extLength` and the last four characters compare equal to
`.zip`). -/
def isZipSuffixed (s : String) : Bool :=
  decide (4 < s.length) && (s.toList.drop (s.length - 4) == ".zip".toList)

/-- `std::string::replace(pos, count, r)`: the `count` characters from
`pos` are replaced by `r`. -/
def replaceRange (s : String) (pos count : Nat) (r : String) : String :=
  String.mk (s.toList.take pos ++ r.toList ++ s.toList.drop (pos + count))

/-- The `sPath` computation of `applySceneImports` (importer.cpp lines
76-84): for a `.zip`-suffixed URL the in-bundle root path is derived and
the `.zip` suffix is replaced by `/` followed by it; other URLs pass
through unchanged.  `none` propagates the `getBundledPath` exception. -/
def bundledTarget (path : String) : Option String :=
  if isZipSuffixed path then
    (getBundledPath path).map (fun b => replaceRange path (path.length - 4) 4 ("/" ++ b))
  else some path

/-- One `Asset` record of the registry: the resolved URL, the relative
path inside a bundle, and the shared `ZipHandle` reference.  Handle
sharing by reference identity is modelled by a numeric handle identity:
two assets hold the same `ZipHandle` object exactly when they hold the
same identity. -/
structure AssetRec where
  name : String
  path : String
  zipHandle : Option Nat
deriving DecidableEq, Repr

/-- The scene asset registry (`m_scene->sceneAssets()`), with the next
fresh handle identity. -/
structure SceneAssets where
  entries : List (String × AssetRec)
  nextHandle : Nat
deriving DecidableEq, Repr

/-- Registry lookup by resolved URL. -/
def assetsGet : List (String × AssetRec) → String → Option AssetRec
  | [], _ => none
  | (k', v) :: rest, k => if k' = k then some v else assetsGet rest k

/-- The `Asset` constructor (asset.cpp lines 14-46): the passed handle is
stored; non-empty zipped data opens a fresh archive instead, whose
handle is dropped again if `mz_zip_reader_init_mem` fails (`openOk`
models that external outcome). -/
def mkAsset (openOk : List Nat → Bool) (name path : String) (zipData : List Nat)
    (zipHandle : Option Nat) (fresh : Nat) : AssetRec :=
  if zipData ≠ [] then
    if openOk zipData then ⟨name, path, some fresh⟩ else ⟨name, path, none⟩
  else ⟨name, path, zipHandle⟩

/-- `Importer::createSceneAsset(resolved, relative, base, zipData)`
(importer.cpp lines 177-203).  An existing entry is returned untouched.
An empty base builds a root asset from the zip data.  An absolute
relative URL escapes the bundle and gets no handle.  Otherwise the data
must be empty (the source asserts it; a violation is modelled as `none`)
and the parent's handle is shared into the new asset; a missing parent
entry would dereference a default-constructed null pointer, also
modelled as `none`. -/
def createSceneAsset (openOk : List Nat → Bool) (isAbs : String → Bool) (sa : SceneAssets)
    (resolved relative base : String) (zipData : List Nat) : Option SceneAssets :=
  if (assetsGet sa.entries resolved).isSome then some sa
  else if base = "" then
    some ⟨sa.entries ++ [(resolved, mkAsset openOk resolved relative zipData none sa.nextHandle)],
          sa.nextHandle + 1⟩
  else if isAbs relative then
    some ⟨sa.entries ++ [(resolved, mkAsset openOk resolved relative [] none sa.nextHandle)],
          sa.nextHandle + 1⟩
  else if zipData ≠ [] then none
  else
    match assetsGet sa.entries base with
    | none => none
    | some parent =>
      some ⟨sa.entries ++
              [(resolved, mkAsset openOk resolved relative [] parent.zipHandle sa.nextHandle)],
            sa.nextHandle + 1⟩

/-- A `ZipHandle` as seen by `readBytesFromAsset`: whether the archive
handle is non-null, and the eagerly built filename-to-index map. -/
structure ZipHandleRec where
  archiveOk : Bool
  fileIndices : List (String × Nat)
deriving DecidableEq, Repr

/-- Lookup in the filename-to-index map. -/
def idxGet : List (String × Nat) → String → Option Nat
  | [], _ => none
  | (k', v) :: rest, k => if k' = k then some v else idxGet rest k

/-- An asset as read by `readBytesFromAsset`: name, in-bundle path and
optional zip handle. -/
structure AssetFull where
  name : String
  path : String
  zipHandle : Option ZipHandleRec
deriving DecidableEq, Repr

/-- `Asset::readBytesFromAsset` (asset.cpp lines 58-86).  With a zip
handle, the bytes (empty on a missing entry or failed extraction) are
returned from inside the `if (m_zipHandle)` block and the platform is
never consulted; without one, the platform's `bytesFromFile` is used.
The boolean records whether the platform was consulted.  `extract`
models `mz_zip_reader_extract_to_heap`, `none` being failure. -/
def readBytesFromAsset (extract : Nat → Option (List Nat))
    (bytesFromFile : String → List Nat) (a : AssetFull) : List Nat × Bool :=
  match a.zipHandle with
  | some zh =>
    if zh.archiveOk then
      match idxGet zh.fileIndices a.path with
      | some i =>
        match extract i with
        | some d => (d, false)
        | none => ([], false)
      | none => ([], false)
    else ([], false)
  | none => (bytesFromFile a.name, true)

/-- The keys of a mapping, in order. -/
def mapKeys : NodeMap → List String
  | .nil => []
  | .cons k _ tl => k :: mapKeys tl

/-- Concrete external environment for the merge and cycle scenarios:
relative URLs are used verbatim as scene keys, and no scalar decodes as
bool or number. -/
def envId : UrlEnv := ⟨fun s _ => s, fun _ => true, id, fun _ => false, fun _ => false⟩

theorem getKey_setKey_self : ∀ (m : NodeMap) (k : String) (v : YamlNode),
    getKey (setKey m k v) k = some v
  | .nil, k, v => by simp [getKey, setKey]
  | .cons k0 v0 tl, k, v => by
    by_cases h : k0 = k <;> simp [getKey, setKey, h, getKey_setKey_self tl k v]

theorem getKey_setKey_ne : ∀ (m : NodeMap) (k k' : String) (v : YamlNode), k ≠ k' →
    getKey (setKey m k v) k' = getKey m k'
  | .nil, k, k', v, h => by simp [getKey, setKey, h]
  | .cons k0 v0 tl, k, k', v, h => by
    by_cases h0 : k0 = k
    · subst h0; simp [getKey, setKey, h]
    · simp [getKey, setKey, h0, getKey_setKey_ne tl k k' v h]

theorem mergeOne_getKey_ne (tm : NodeMap) (k : String) (src : YamlNode) (k' : String)
    (h : k ≠ k') : getKey (mergeOne tm k src).1 k' = getKey tm k' := by
  cases hg : getKey tm k with
  | none => simp [mergeOne, hg, getKey_setKey_ne _ _ _ _ h]
  | some dest =>
    cases dest <;> cases src <;> simp [mergeOne, hg, getKey_setKey_ne _ _ _ _ h]

theorem mergeEntries_getKey_not_mem : ∀ (im tm : NodeMap) (k : String), k ∉ mapKeys im →
    getKey (mergeEntries tm im).1 k = getKey tm k
  | .nil, tm, k, _ => by simp [mergeEntries]
  | .cons k0 src rest, tm, k, h => by
    have h0 : k0 ≠ k := fun e => h (by simp [mapKeys, e])
    have hr : k ∉ mapKeys rest := fun e => h (by simp [mapKeys, e])
    simp only [mergeEntries]
    rw [mergeEntries_getKey_not_mem rest _ k hr, mergeOne_getKey_ne _ _ _ _ h0]

theorem mergeEntries_seq_replace : ∀ (im tm : NodeMap) (k : String) (xs ys : NodeSeq),
    (mapKeys im).Nodup → getKey tm k = some (.sequence xs) →
    getKey im k = some (.sequence ys) →
    getKey (mergeEntries tm im).1 k = some (.sequence ys)
  | .nil, _, k, _, _, _, _, him => by simp [getKey] at him
  | .cons k0 src rest, tm, k, xs, ys, hnd, htm, him => by
    rw [mapKeys, List.nodup_cons] at hnd
    by_cases h0 : k0 = k
    · subst h0
      rw [getKey, if_pos rfl] at him
      injection him with him
      subst him
      simp only [mergeEntries]
      rw [mergeEntries_getKey_not_mem rest _ k0 hnd.1]
      simp [mergeOne, htm, getKey_setKey_self]
    · rw [getKey, if_neg h0] at him
      have htm' : getKey (mergeOne tm k0 src).1 k = some (.sequence xs) := by
        rw [mergeOne_getKey_ne _ _ _ _ h0]; exact htm
      simp only [mergeEntries]
      exact mergeEntries_seq_replace rest _ k xs ys hnd.2 htm' him

def scenesC2 : List (String × YamlNode) :=
  [("a.yaml", .mapping (nmap [("import", .sequence (nseq [.scalar "b.yaml"])),
                              ("k", .sequence (nseq [.scalar "1", .scalar "2"]))])),
   ("b.yaml", .mapping (nmap [("k", .sequence (nseq [.scalar "3", .scalar "4", .scalar "5"]))]))]

/-- C2: in `mergeMapFields`, a key mapping to a sequence in both target
and source has the target's sequence replaced wholesale by the source's
sequence (never concatenated); merging `b.yaml` holding `k: [3,4,5]`
into root `a.yaml` holding `import: [b.yaml]` and `k: [1,2]` yields a
merged document whose `k` is `[1,2]`. -/
theorem mergeMapFields_replaces_sequences :
    (∀ (tm im : NodeMap) (k : String) (xs ys : NodeSeq),
      (mapKeys im).Nodup → getKey tm k = some (.sequence xs) →
      getKey im k = some (.sequence ys) →
      getKeyN (mergeMapFields (.mapping tm) (.mapping im)).1 k = some (.sequence ys)) ∧
    ((importScenesRecursive envId 5 ⟨scenesC2, .null, [], [], []⟩ "a.yaml").map ImpState.root =
      some (.mapping (nmap [("k", .sequence (nseq [.scalar "1", .scalar "2"]))]))) := by
  constructor
  · intro tm im k xs ys hnd htm him
    simp only [mergeMapFields, getKeyN]
    exact mergeEntries_seq_replace im tm k xs ys hnd htm him
  · rfl

/-- C2 witness: the general sequence-replacement statement applied to the
concrete target `k: [1,2]` and source `k: [3,4,5]`. -/
theorem mergeMapFields_replaces_sequences_witness :
    getKeyN (mergeMapFields
        (.mapping (nmap [("k", .sequence (nseq [.scalar "1", .scalar "2"]))]))
        (.mapping (nmap [("k", .sequence (nseq [.scalar "3", .scalar "4", .scalar "5"]))]))).1
      "k" = some (.sequence (nseq [.scalar "3", .scalar "4", .scalar "5"])) :=
  mergeMapFields_replaces_sequences.1 _ _ "k" (nseq [.scalar "1", .scalar "2"])
    (nseq [.scalar "3", .scalar "4", .scalar "5"]) (by simp [mapKeys, nmap]) rfl rfl

def scenesC1 : List (String × YamlNode) :=
  [("a.yaml", .mapping (nmap [("import", .sequence (nseq [.scalar "b.yaml"])),
                              ("x", .scalar "1")])),
   ("b.yaml", .mapping (nmap [("x", .scalar "2"), ("y", .scalar "3")]))]

def scenesC1later : List (String × YamlNode) :=
  [("a.yaml", .mapping (nmap [("import", .sequence (nseq [.scalar "b.yaml", .scalar "c.yaml"]))])),
   ("b.yaml", .mapping (nmap [("z", .scalar "2")])),
   ("c.yaml", .mapping (nmap [("z", .scalar "3")]))]

/-- C1: for root `a.yaml` holding `import: [b.yaml]` and `x: 1`, with
`b.yaml` holding `x: 2` and `y: 3`, the merged root is exactly
`x: 1, y: 3`: the import is merged first and the current document
overrides it, and the merged root carries no top-level `import` key.
For sibling imports (root importing `b.yaml` then `c.yaml`, both setting
`z`), the later sibling wins. -/
theorem importScenesRecursive_simple_merge :
    ((importScenesRecursive envId 5 ⟨scenesC1, .null, [], [], []⟩ "a.yaml").map ImpState.root =
      some (.mapping (nmap [("x", .scalar "1"), ("y", .scalar "3")]))) ∧
    ((importScenesRecursive envId 5 ⟨scenesC1, .null, [], [], []⟩ "a.yaml").map
        (fun st => getKeyN st.root "import") = some none) ∧
    ((importScenesRecursive envId 5 ⟨scenesC1later, .null, [], [], []⟩ "a.yaml").map
        ImpState.root = some (.mapping (nmap [("z", .scalar "3")]))) :=
  ⟨rfl, rfl, rfl⟩

theorem mergeEntries_type_mismatch_aux :
    ∀ (im tm : NodeMap) (k : String) (dv sv : YamlNode),
      (mapKeys im).Nodup → getKey tm k = some dv → getKey im k = some sv →
      nodeTy dv ≠ nodeTy sv →
      (LogMsg.mergeTypeMismatch k) ∈ (mergeEntries tm im).2 ∧
      (dv = .null → getKey (mergeEntries tm im).1 k = some dv) ∧
      (dv ≠ .null → getKey (mergeEntries tm im).1 k = some sv)
  | .nil, _, k, _, _, _, _, him, _ => by simp [getKey] at him
  | .cons k0 src rest, tm, k, dv, sv, hnd, htm, him, hty => by
    rw [mapKeys, List.nodup_cons] at hnd
    by_cases h0 : k0 = k
    · subst h0
      rw [getKey, if_pos rfl] at him
      injection him with him
      subst him
      have hpres : getKey (mergeEntries (mergeOne tm k0 src).1 rest).1 k0 =
          getKey (mergeOne tm k0 src).1 k0 :=
        mergeEntries_getKey_not_mem rest _ k0 hnd.1
      simp only [mergeEntries, List.mem_append]
      refine ⟨Or.inl ?_, ?_, ?_⟩
      · cases dv <;> cases src <;> simp_all [mergeOne, nodeTy]
      · intro hdv
        subst hdv
        rw [hpres]
        simp [mergeOne, htm, hty]
      · intro hdv
        rw [hpres]
        cases dv with
        | null => exact absurd rfl hdv
        | scalar s => simp [mergeOne, htm, hty, getKey_setKey_self]
        | sequence xs => simp [mergeOne, htm, hty, getKey_setKey_self]
        | mapping dm =>
          cases src <;>
            simp_all [mergeOne, htm, nodeTy, getKey_setKey_self]
    · rw [getKey, if_neg h0] at him
      have htm' : getKey (mergeOne tm k0 src).1 k = some dv := by
        rw [mergeOne_getKey_ne _ _ _ _ h0]; exact htm
      have ih := mergeEntries_type_mismatch_aux rest (mergeOne tm k0 src).1 k dv sv
        hnd.2 htm' him hty
      simp only [mergeEntries, List.mem_append]
      exact ⟨Or.inr ih.1, ih.2.1, ih.2.2⟩

/-- C3 counterexample: merging source `k: "v"` into a target whose `k` is
null logs the type mismatch but leaves the target's `k` null — the
destination is not replaced by the source, so the claim's unconditional
replacement fails at this input. -/
theorem mergeMapFields_null_dest_unchanged :
    (mergeMapFields (.mapping (nmap [("k", .null)]))
        (.mapping (nmap [("k", .scalar "v")]))).2 = [.mergeTypeMismatch "k"] ∧
    getKeyN (mergeMapFields (.mapping (nmap [("k", .null)]))
        (.mapping (nmap [("k", .scalar "v")]))).1 "k" = some .null ∧
    YamlNode.null ≠ YamlNode.scalar "v" :=
  ⟨rfl, rfl, fun h => nomatch h⟩

/-- C3 amended: in `mergeMapFields`, for a key present in both whose node
types differ, the mismatch is logged, and `target[key]` is replaced by
the source node when the destination is a scalar, sequence or mapping —
but a null destination falls through the type switch and is left
unchanged. -/
theorem mergeEntries_type_mismatch :
    ∀ (tm im : NodeMap) (k : String) (dv sv : YamlNode),
      (mapKeys im).Nodup → getKey tm k = some dv → getKey im k = some sv →
      nodeTy dv ≠ nodeTy sv →
      (LogMsg.mergeTypeMismatch k) ∈ (mergeEntries tm im).2 ∧
      (dv = .null → getKey (mergeEntries tm im).1 k = some dv) ∧
      (dv ≠ .null → getKey (mergeEntries tm im).1 k = some sv) :=
  fun tm im k dv sv hnd htm him hty =>
    mergeEntries_type_mismatch_aux im tm k dv sv hnd htm him hty

/-- C3 witness: the amended statement applied with a sequence destination
and a scalar source at key `k`: the mismatch is logged and the
destination is replaced. -/
theorem mergeEntries_type_mismatch_witness :
    (LogMsg.mergeTypeMismatch "k") ∈
      (mergeEntries (nmap [("k", .sequence .nil)]) (nmap [("k", .scalar "s")])).2 ∧
    getKey (mergeEntries (nmap [("k", .sequence .nil)]) (nmap [("k", .scalar "s")])).1 "k" =
      some (.scalar "s") :=
  have h := mergeEntries_type_mismatch (nmap [("k", .sequence .nil)])
    (nmap [("k", .scalar "s")]) "k" (.sequence .nil) (.scalar "s")
    (by simp [mapKeys, nmap]) rfl rfl (fun h => nomatch h)
  ⟨h.1, h.2.2 (fun h => nomatch h)⟩

def scenesC9 : List (String × YamlNode) :=
  [("a.yaml", .mapping (nmap [("import", .sequence (nseq [.scalar "b.yaml"])),
                              ("x", .scalar "1")]))]

/-- C9: `importScenesRecursive` does not restore the traversal stack on
every return path.  When the scene for the pushed URL is missing (and
likewise when it is null or not a mapping), the early return leaves the
URL on the stack.  Concretely, walking root `a.yaml` whose import
`b.yaml` was never fetched leaves the final stack as `[a.yaml]` (the
pop after the children removes the leaked `b.yaml` instead of
`a.yaml`), not the empty stack it started from. -/
theorem importScenesRecursive_stack_leak :
    (∀ (env : UrlEnv) (n : Nat) (st : ImpState) (cur : String),
      cur ∉ st.stack → sceneGet st.scenes cur = none →
      importScenesRecursive env (n + 1) st cur = some { st with stack := st.stack ++ [cur] }) ∧
    ((importScenesRecursive envId 5 ⟨scenesC9, .null, [], [], []⟩ "a.yaml").map ImpState.stack =
      some ["a.yaml"]) ∧
    ["a.yaml"] ≠ ([] : List String) := by
  refine ⟨?_, rfl, by decide⟩
  intro env n st cur hc hs
  simp only [importScenesRecursive]
  simp [importSceneStep, hc, hs]

/-- C9 witness: the missing-scene early return applied concretely — the
URL pushed on entry is still on the stack when the call returns. -/
theorem importScenesRecursive_stack_leak_witness :
    importScenesRecursive envId 3 ⟨[], .null, [], [], []⟩ "u.yaml" =
      some ⟨[], .null, ["u.yaml"], [], []⟩ :=
  importScenesRecursive_stack_leak.1 envId 2 ⟨[], .null, [], [], []⟩ "u.yaml"
    (by simp) rfl

/-- C10: with a zip handle whose filename-to-index map lacks the asset's
path, `readBytesFromAsset` returns the empty byte vector and does not
consult the platform; the platform fallback is taken exactly when the
asset has no zip handle at all. -/
theorem readBytesFromAsset_zip_miss :
    (∀ (extract : Nat → Option (List Nat)) (bytesFromFile : String → List Nat)
        (a : AssetFull) (zh : ZipHandleRec),
      a.zipHandle = some zh → idxGet zh.fileIndices a.path = none →
      readBytesFromAsset extract bytesFromFile a = ([], false)) ∧
    (∀ (extract : Nat → Option (List Nat)) (bytesFromFile : String → List Nat)
        (a : AssetFull),
      (readBytesFromAsset extract bytesFromFile a).2 = true ↔ a.zipHandle = none) := by
  constructor
  · intro extract bytesFromFile a zh hz hidx
    simp [readBytesFromAsset, hz, hidx]
  · intro extract bytesFromFile a
    match hz : a.zipHandle with
    | none => simp [readBytesFromAsset, hz]
    | some zh =>
      simp only [readBytesFromAsset, hz]
      by_cases hok : zh.archiveOk
      · simp only [hok, if_true]
        cases hidx : idxGet zh.fileIndices a.path with
        | none => simp
        | some i =>
          cases he : extract i with
          | none => simp [he]
          | some d => simp [he]
      · simp [hok]

/-- C10 witness: a concrete asset whose path `missing` is absent from the
archive's filename map reads as the empty byte vector without touching
the platform. -/
theorem readBytesFromAsset_zip_miss_witness :
    readBytesFromAsset (fun _ => none) (fun _ => [7])
      ⟨"n", "missing", some ⟨true, [("present.yaml", 0)]⟩⟩ = ([], false) :=
  readBytesFromAsset_zip_miss.1 (fun _ => none) (fun _ => [7])
    ⟨"n", "missing", some ⟨true, [("present.yaml", 0)]⟩⟩ ⟨true, [("present.yaml", 0)]⟩ rfl rfl

theorem rfindIdx_lt (s pat : List Char) (i : Nat) (h : rfindIdx s pat = some i) :
    i < s.length + 1 := by
  have hm : i ∈ (List.range (s.length + 1)).filter (subOccursAt pat s) := by
    have hmem : i ∈ ((List.range (s.length + 1)).filter (subOccursAt pat s)).getLast? :=
      Option.mem_def.mpr h
    obtain ⟨hne, heq⟩ := List.mem_getLast?_eq_getLast hmem
    rw [heq]
    exact List.getLast_mem hne
  exact List.mem_range.mp (List.mem_filter.mp hm).1

/-- C7 amended: for a URL whose final `.zip` occurs at `ext` and whose
final `/` occurs at `loc` (in particular any URL that ends in `.zip` and
contains a slash), `getBundledPath` returns `substr(loc, ext - loc)`
followed by `.yaml`; the coordinator then forms the scene path by
replacing the four-character `.zip` suffix of the archive URL with `/`
followed by this in-bundle root path.  (A `.zip` URL with no slash
instead reaches `substr(npos, ...)`, which throws — see the
counterexample.) -/
theorem getBundledPath_with_slash :
    (∀ (s : String) (ext loc : Nat), strRfind s ".zip" = some ext → strRfind s "/" = some loc →
      getBundledPath s = some (String.mk ((s.toList.drop loc).take (ext - loc)) ++ ".yaml")) ∧
    (∀ (s b : String), isZipSuffixed s = true → getBundledPath s = some b →
      bundledTarget s = some (String.mk (s.toList.take (s.length - 4)) ++ "/" ++ b)) := by
  constructor
  · intro s ext loc h1 h2
    have hle : loc ≤ s.length := by
      have := rfindIdx_lt s.toList "/".toList loc h2
      have hlen : s.toList.length = s.length := rfl
      omega
    simp [getBundledPath, h1, h2, substrFrom, hle]
  · intro s b hzip hbp
    have h4 : 4 < s.length := by
      have := (Bool.and_eq_true _ _).mp hzip
      exact of_decide_eq_true this.1
    simp only [bundledTarget, hzip, if_true, hbp, Option.map_some']
    have hdrop : s.toList.drop (s.length - 4 + 4) = [] := by
      have he : s.length - 4 + 4 = s.length := by omega
      rw [he]
      apply List.drop_of_length_le
      have hlen : s.toList.length = s.length := rfl
      omega
    apply congrArg some
    show String.mk (s.toList.take (s.length - 4) ++ ("/" ++ b).toList ++
        s.toList.drop (s.length - 4 + 4)) = _
    rw [hdrop]
    show String.mk _ = String.mk ((s.toList.take (s.length - 4) ++ "/".data) ++ b.data)
    apply congrArg String.mk
    simp [String.toList]

/-- C7 counterexample: `pkg.zip` ends in `.zip` (and passes the
coordinator's suffix test) but contains no `/`; `getBundledPath` reaches
`substr(npos, ...)` and throws instead of returning an in-bundle root
path. -/
theorem getBundledPath_no_slash_throws :
    isZipSuffixed "pkg.zip" = true ∧ getBundledPath "pkg.zip" = none := ⟨rfl, rfl⟩

/-- C7 witness: the amended statement applied to
`http://host/pkg.zip`, whose final `/` is at 11 and final `.zip` at 15:
the in-bundle root is `/pkg.yaml` and the scene path replaces the `.zip`
suffix with `//pkg.yaml`. -/
theorem getBundledPath_with_slash_witness :
    strRfind "http://host/pkg.zip" ".zip" = some 15 ∧
    strRfind "http://host/pkg.zip" "/" = some 11 ∧
    getBundledPath "http://host/pkg.zip" = some "/pkg.yaml" ∧
    bundledTarget "http://host/pkg.zip" = some "http://host/pkg//pkg.yaml" := by
  refine ⟨rfl, rfl, ?_, ?_⟩
  · exact (getBundledPath_with_slash.1 "http://host/pkg.zip" 15 11 rfl rfl).trans rfl
  · exact (getBundledPath_with_slash.2 "http://host/pkg.zip" "/pkg.yaml" rfl
      ((getBundledPath_with_slash.1 "http://host/pkg.zip" 15 11 rfl rfl).trans rfl)).trans rfl

theorem sceneGet_mem (scenes : List (String × YamlNode)) (k : String) (v : YamlNode)
    (h : sceneGet scenes k = some v) : k ∈ sceneKeys scenes := by
  induction scenes with
  | nil => simp [sceneGet] at h
  | cons hd tl ih =>
    obtain ⟨k0, v0⟩ := hd
    by_cases h0 : k0 = k
    · simp [sceneKeys, h0]
    · rw [sceneGet, if_neg h0] at h
      simp [sceneKeys] at ih ⊢
      exact Or.inr (ih h)

theorem sceneKeys_sceneSet (scenes : List (String × YamlNode)) (k : String)
    (v w : YamlNode) (h : sceneGet scenes k = some w) :
    sceneKeys (sceneSet scenes k v) = sceneKeys scenes := by
  induction scenes with
  | nil => simp [sceneGet] at h
  | cons hd tl ih =>
    obtain ⟨k0, v0⟩ := hd
    by_cases h0 : k0 = k
    · simp [sceneSet, sceneKeys, h0]
    · rw [sceneGet, if_neg h0] at h
      have hh := ih h
      simp only [sceneKeys] at hh
      simp [sceneSet, sceneKeys, h0, hh]

theorem runImportList_scenes_keys (step : ImpState → String → Option ImpState)
    (hstep : ∀ st u st', step st u = some st' → sceneKeys st'.scenes = sceneKeys st.scenes) :
    ∀ (urls : List String) (st st' : ImpState), runImportList step st urls = some st' →
      sceneKeys st'.scenes = sceneKeys st.scenes := by
  intro urls
  induction urls with
  | nil =>
    intro st st' h
    simp only [runImportList] at h
    injection h with h
    rw [h]
  | cons u rest ih =>
    intro st st' h
    simp only [runImportList] at h
    cases hu : step st u with
    | none => rw [hu] at h; exact absurd h (by simp)
    | some s1 =>
      rw [hu] at h
      exact (ih s1 st' h).trans (hstep st u s1 hu)

theorem importScenesRecursive_scenes_keys :
    ∀ (env : UrlEnv) (n : Nat) (st : ImpState) (cur : String) (st' : ImpState),
      importScenesRecursive env n st cur = some st' →
      sceneKeys st'.scenes = sceneKeys st.scenes := by
  intro env n
  induction n with
  | zero => intro st cur st' h; simp [importScenesRecursive] at h
  | succ n ih =>
    intro st cur st' h
    simp only [importScenesRecursive] at h
    by_cases hc : cur ∈ st.stack
    · simp only [importSceneStep, if_pos hc] at h
      injection h with h
      rw [← h]
    · cases hs : sceneGet st.scenes cur with
      | none =>
        simp only [importSceneStep, if_neg hc, hs] at h
        injection h with h
        rw [← h]
      | some sceneNode =>
        cases sceneNode with
        | mapping m =>
          simp only [importSceneStep, if_neg hc, hs] at h
          cases hr : runImportList (importScenesRecursive env n)
              { st with scenes := sceneSet st.scenes cur
                          (.mapping (removeKey m "import")),
                        stack := st.stack ++ [cur],
                        assets := st.assets ++
                          (getResolvedImportUrls env (.mapping m) cur).2 }
              (getResolvedImportUrls env (.mapping m) cur).1 with
          | none => simp only [hr] at h; exact Option.noConfusion h
          | some st2 =>
            simp only [hr] at h
            injection h with h
            rw [← h]
            have h2 := runImportList_scenes_keys (importScenesRecursive env n) (ih) _ _ _ hr
            simpa [sceneKeys_sceneSet st.scenes cur _ _ hs] using h2
        | null =>
          simp only [importSceneStep, if_neg hc, hs] at h
          injection h with h
          rw [← h]
        | scalar s =>
          simp only [importSceneStep, if_neg hc, hs] at h
          injection h with h
          rw [← h]
        | sequence xs =>
          simp only [importSceneStep, if_neg hc, hs] at h
          injection h with h
          rw [← h]

/-- The exit stack of every successful walk extends the entry stack. -/
theorem runImportList_stack_ext (step : ImpState → String → Option ImpState)
    (hstep : ∀ st u st', step st u = some st' → ∃ w, st'.stack = st.stack ++ w) :
    ∀ (urls : List String) (st st' : ImpState), runImportList step st urls = some st' →
      ∃ w, st'.stack = st.stack ++ w := by
  intro urls
  induction urls with
  | nil =>
    intro st st' h
    simp only [runImportList] at h
    injection h with h
    exact ⟨[], by rw [h]; simp⟩
  | cons u rest ih =>
    intro st st' h
    simp only [runImportList] at h
    cases hu : step st u with
    | none => rw [hu] at h; exact absurd h (by simp)
    | some s1 =>
      rw [hu] at h
      obtain ⟨w1, hw1⟩ := hstep st u s1 hu
      obtain ⟨w2, hw2⟩ := ih s1 st' h
      exact ⟨w1 ++ w2, by rw [hw2, hw1, List.append_assoc]⟩

theorem dropLast_append_nonempty : ∀ (l m : List String), m ≠ [] →
    (l ++ m).dropLast = l ++ m.dropLast := by
  intro l m hm
  induction l with
  | nil => simp
  | cons a t ih =>
    have ht : t ++ m ≠ [] := by
      intro e
      exact hm (List.append_eq_nil.mp e).2
    rw [List.cons_append, List.dropLast_cons_of_ne_nil ht, ih, List.cons_append]

theorem importScenesRecursive_stack_ext :
    ∀ (env : UrlEnv) (n : Nat) (st : ImpState) (cur : String) (st' : ImpState),
      importScenesRecursive env n st cur = some st' →
      ∃ w, st'.stack = st.stack ++ w := by
  intro env n
  induction n with
  | zero => intro st cur st' h; simp [importScenesRecursive] at h
  | succ n ih =>
    intro st cur st' h
    simp only [importScenesRecursive] at h
    by_cases hc : cur ∈ st.stack
    · simp only [importSceneStep, if_pos hc] at h
      injection h with h
      exact ⟨[], by rw [← h]; simp⟩
    · cases hs : sceneGet st.scenes cur with
      | none =>
        simp only [importSceneStep, if_neg hc, hs] at h
        injection h with h
        exact ⟨[cur], by rw [← h]⟩
      | some sceneNode =>
        cases sceneNode with
        | mapping m =>
          simp only [importSceneStep, if_neg hc, hs] at h
          cases hr : runImportList (importScenesRecursive env n)
              { st with scenes := sceneSet st.scenes cur
                          (.mapping (removeKey m "import")),
                        stack := st.stack ++ [cur],
                        assets := st.assets ++
                          (getResolvedImportUrls env (.mapping m) cur).2 }
              (getResolvedImportUrls env (.mapping m) cur).1 with
          | none => simp only [hr] at h; exact Option.noConfusion h
          | some st2 =>
            simp only [hr] at h
            injection h with h
            obtain ⟨w, hw⟩ := runImportList_stack_ext (importScenesRecursive env n) ih _ _ _ hr
            refine ⟨([cur] ++ w).dropLast, ?_⟩
            rw [← h]
            show st2.stack.dropLast = _
            rw [hw]
            show (st.stack ++ [cur] ++ w).dropLast = _
            rw [List.append_assoc]
            exact dropLast_append_nonempty _ _ (by simp)
        | null =>
          simp only [importSceneStep, if_neg hc, hs] at h
          injection h with h
          exact ⟨[cur], by rw [← h]⟩
        | scalar s =>
          simp only [importSceneStep, if_neg hc, hs] at h
          injection h with h
          exact ⟨[cur], by rw [← h]⟩
        | sequence xs =>
          simp only [importSceneStep, if_neg hc, hs] at h
          injection h with h
          exact ⟨[cur], by rw [← h]⟩

theorem card_diff_push (K : Finset String) (stack : List String) (cur : String)
    (hK : cur ∈ K) (hs : cur ∉ stack) :
    (K \ (stack ++ [cur]).toFinset).card < (K \ stack.toFinset).card := by
  have h1 : (stack ++ [cur]).toFinset = insert cur stack.toFinset := by
    rw [List.toFinset_append]
    simp [Finset.union_comm, Finset.insert_eq]
  rw [h1, Finset.sdiff_insert]
  exact Finset.card_erase_lt_of_mem (Finset.mem_sdiff.mpr ⟨hK, by simp [hs]⟩)

theorem card_diff_mono (K : Finset String) (s w : List String) :
    (K \ (s ++ w).toFinset).card ≤ (K \ s.toFinset).card := by
  apply Finset.card_le_card
  apply Finset.sdiff_subset_sdiff (le_refl K)
  rw [List.toFinset_append]
  exact Finset.subset_union_left

theorem runImportList_isSome (env : UrlEnv) (n : Nat) (K : Finset String)
    (hsome : ∀ (st : ImpState) (cur : String), (sceneKeys st.scenes).toFinset = K →
      (K \ st.stack.toFinset).card < n → (importScenesRecursive env n st cur).isSome) :
    ∀ (urls : List String) (st : ImpState), (sceneKeys st.scenes).toFinset = K →
      (K \ st.stack.toFinset).card < n →
      (runImportList (importScenesRecursive env n) st urls).isSome := by
  intro urls
  induction urls with
  | nil => intro st hK hcard; simp [runImportList]
  | cons u rest ih =>
    intro st hK hcard
    have h1 := hsome st u hK hcard
    cases hu : importScenesRecursive env n st u with
    | none => rw [hu] at h1; simp at h1
    | some s1 =>
      simp only [runImportList, hu]
      have hk1 : (sceneKeys s1.scenes).toFinset = K := by
        rw [importScenesRecursive_scenes_keys env n st u s1 hu]; exact hK
      obtain ⟨w, hw⟩ := importScenesRecursive_stack_ext env n st u s1 hu
      have hc1 : (K \ s1.stack.toFinset).card < n := by
        have := card_diff_mono K st.stack w
        rw [← hw] at this
        omega
      exact ih s1 hk1 hc1

theorem importScenesRecursive_isSome :
    ∀ (env : UrlEnv) (n : Nat) (st : ImpState) (cur : String),
      ((sceneKeys st.scenes).toFinset \ st.stack.toFinset).card < n →
      (importScenesRecursive env n st cur).isSome := by
  intro env n
  induction n with
  | zero => intro st cur h; exact absurd h (Nat.not_lt_zero _)
  | succ n ih =>
    intro st cur hcard
    simp only [importScenesRecursive]
    by_cases hc : cur ∈ st.stack
    · simp [importSceneStep, hc]
    · cases hs : sceneGet st.scenes cur with
      | none => simp [importSceneStep, hc, hs]
      | some node =>
        cases node with
        | mapping m =>
          simp only [importSceneStep, if_neg hc, hs]
          have hkeq : sceneKeys (sceneSet st.scenes cur (.mapping (removeKey m "import"))) =
              sceneKeys st.scenes := sceneKeys_sceneSet st.scenes cur _ _ hs
          have hcur : cur ∈ (sceneKeys st.scenes).toFinset :=
            List.mem_toFinset.mpr (sceneGet_mem st.scenes cur _ hs)
          have hcard1 : ((sceneKeys st.scenes).toFinset \ (st.stack ++ [cur]).toFinset).card < n := by
            have := card_diff_push (sceneKeys st.scenes).toFinset st.stack cur hcur hc
            omega
          have hrun := runImportList_isSome env n (sceneKeys st.scenes).toFinset
            (fun st' cur' hK hcd => ih st' cur' (by rw [hK]; exact hcd))
            (getResolvedImportUrls env (.mapping m) cur).1
            { st with scenes := sceneSet st.scenes cur (.mapping (removeKey m "import")),
                      stack := st.stack ++ [cur],
                      assets := st.assets ++ (getResolvedImportUrls env (.mapping m) cur).2 }
            (by simpa using congrArg List.toFinset hkeq) hcard1
          cases hr : runImportList (importScenesRecursive env n)
              { st with scenes := sceneSet st.scenes cur (.mapping (removeKey m "import")),
                        stack := st.stack ++ [cur],
                        assets := st.assets ++ (getResolvedImportUrls env (.mapping m) cur).2 }
              (getResolvedImportUrls env (.mapping m) cur).1 with
          | none => rw [hr] at hrun; simp at hrun
          | some st2 => simp [hr]
        | null => simp [importSceneStep, hc, hs]
        | scalar s => simp [importSceneStep, hc, hs]
        | sequence xs => simp [importSceneStep, hc, hs]

def scenesC4 : List (String × YamlNode) :=
  [("a.yaml", .mapping (nmap [("import", .sequence (nseq [.scalar "b.yaml"]))])),
   ("b.yaml", .mapping (nmap [("import", .sequence (nseq [.scalar "a.yaml"])),
                              ("k", .scalar "1")]))]

/-- C4: the import walk terminates on every import map.  A URL already on
the traversal stack logs a cycle error and returns without merging that
branch; with fuel one larger than the number of distinct scene URLs the
walk never runs out, on any import map (cyclic ones included); and for
the two-document cycle `a.yaml` importing `b.yaml` importing `a.yaml`
the load completes with `k: 1` in the merged root and exactly the cycle
error logged. -/
theorem importScenesRecursive_terminates :
    (∀ (env : UrlEnv) (n : Nat) (st : ImpState) (cur : String), cur ∈ st.stack →
      importScenesRecursive env (n + 1) st cur =
        some { st with log := st.log ++ [.cyclicImport cur] }) ∧
    (∀ (env : UrlEnv) (scenes : List (String × YamlNode)) (root0 : YamlNode) (cur : String),
      (importScenesRecursive env ((sceneKeys scenes).toFinset.card + 1)
        ⟨scenes, root0, [], [], []⟩ cur).isSome) ∧
    ((importScenesRecursive envId 5 ⟨scenesC4, .null, [], [], []⟩ "a.yaml").map ImpState.root =
      some (.mapping (nmap [("k", .scalar "1")]))) ∧
    ((importScenesRecursive envId 5 ⟨scenesC4, .null, [], [], []⟩ "a.yaml").map ImpState.log =
      some [.cyclicImport "a.yaml"]) := by
  refine ⟨?_, ?_, rfl, rfl⟩
  · intro env n st cur hc
    simp only [importScenesRecursive]
    simp [importSceneStep, hc]
  · intro env scenes root0 cur
    apply importScenesRecursive_isSome
    simp

/-- C4 witness: the cycle guard applied concretely — a URL already on the
stack returns at once with only the cycle error appended. -/
theorem importScenesRecursive_terminates_witness :
    importScenesRecursive envId 1 ⟨[], .null, ["u.yaml"], [], []⟩ "u.yaml" =
      some ⟨[], .null, ["u.yaml"], [.cyclicImport "u.yaml"], []⟩ :=
  importScenesRecursive_terminates.1 envId 0 ⟨[], .null, ["u.yaml"], [], []⟩ "u.yaml"
    (by simp)

mutual
/-- Relates a node to a rewritten version of it: the rewriter may replace
a scalar only when the original scalar is a potential URL; sequences and
mappings are refined pointwise with keys preserved; nothing else
changes. -/
inductive UrlRefines : YamlNode → YamlNode → Prop where
  | same (n : YamlNode) : UrlRefines n n
  | rewritten (s r : String) : nodeIsPotentialUrl (.scalar s) = true →
      UrlRefines (.scalar s) (.scalar r)
  | seq {xs ys : NodeSeq} : SeqRefines xs ys → UrlRefines (.sequence xs) (.sequence ys)
  | map {m m' : NodeMap} : MapRefines m m' → UrlRefines (.mapping m) (.mapping m')
/-- Pointwise `UrlRefines` over sequence elements. -/
inductive SeqRefines : NodeSeq → NodeSeq → Prop where
  | nil : SeqRefines .nil .nil
  | cons {a b : YamlNode} {xs ys : NodeSeq} : UrlRefines a b → SeqRefines xs ys →
      SeqRefines (.cons a xs) (.cons b ys)
/-- Pointwise `UrlRefines` over mapping entries, keys unchanged. -/
inductive MapRefines : NodeMap → NodeMap → Prop where
  | nil : MapRefines .nil .nil
  | cons (k : String) {v v' : YamlNode} {m m' : NodeMap} : UrlRefines v v' → MapRefines m m' →
      MapRefines (.cons k v m) (.cons k v' m')
end

theorem mapRefines_refl : ∀ m : NodeMap, MapRefines m m
  | .nil => .nil
  | .cons k v tl => .cons k (.same v) (mapRefines_refl tl)

/-- Updating a refined mapping at a key whose original value refines into
the new value preserves the refinement of the original mapping. -/
theorem mapRefines_setKey (k : String) (v v' : YamlNode) :
    ∀ {m m' : NodeMap}, MapRefines m m' → getKey m k = some v → UrlRefines v v' →
      MapRefines m (setKey m' k v')
  | _, _, .nil, hg, _ => by simp [getKey] at hg
  | _, _, .cons k0 hw htl, hg, hr => by
    by_cases h0 : k0 = k
    · subst h0
      rw [getKey, if_pos rfl] at hg
      injection hg with hg
      subst hg
      rw [setKey, if_pos rfl]
      exact .cons k0 hr htl
    · rw [getKey, if_neg h0] at hg
      rw [setKey, if_neg h0]
      exact .cons k0 hw (mapRefines_setKey k v v' htl hg hr)

theorem potential_of_textureUrl (env : UrlEnv) (node : YamlNode) (textures : Option YamlNode)
    (h : nodeIsTextureUrl env node textures = true) : nodeIsPotentialUrl node = true := by
  have := (Bool.and_eq_true _ _).mp h
  exact this.1

theorem mapEntriesCalls_refines (f : YamlNode → YamlNode × List AssetCall)
    (hf : ∀ v, UrlRefines v (f v).1) : ∀ m, MapRefines m (mapEntriesCalls f m).1
  | .nil => .nil
  | .cons k v tl => .cons k (hf v) (mapEntriesCalls_refines f hf tl)

theorem mapSeqCalls_refines (f : YamlNode → YamlNode × List AssetCall)
    (hf : ∀ v, UrlRefines v (f v).1) : ∀ xs, SeqRefines xs (mapSeqCalls f xs).1
  | .nil => .nil
  | .cons v tl => .cons (hf v) (mapSeqCalls_refines f hf tl)

theorem resolveTexEntry_refines (env : UrlEnv) (base : String) :
    ∀ v, UrlRefines v (resolveTexEntry env base v).1 := by
  intro v
  cases v with
  | mapping em =>
    cases hg : getKey em "url" with
    | none => simp only [resolveTexEntry, hg]; exact .same _
    | some u =>
      cases u with
      | scalar s =>
        by_cases hp : nodeIsPotentialUrl (.scalar s) = true
        · simp only [resolveTexEntry, hg, hp, if_true]
          exact .map (mapRefines_setKey "url" (.scalar s) _ (mapRefines_refl em) hg
            (.rewritten s _ hp))
        · simp only [resolveTexEntry, hg, hp, if_false]
          exact .same _
      | null => simp only [resolveTexEntry, hg]; exact .same _
      | sequence xs => simp only [resolveTexEntry, hg]; exact .same _
      | mapping mm => simp only [resolveTexEntry, hg]; exact .same _
  | null => exact .same _
  | scalar s => exact .same _
  | sequence xs => exact .same _

theorem resolveMatProp_refines (env : UrlEnv) (base : String) (textures : Option YamlNode) :
    ∀ v, UrlRefines v (resolveMatProp env base textures v).1 := by
  intro v
  cases v with
  | mapping pm =>
    cases hg : getKey pm "texture" with
    | none => simp only [resolveMatProp, hg]; exact .same _
    | some u =>
      cases u with
      | scalar t =>
        by_cases ht : nodeIsTextureUrl env (.scalar t) textures = true
        · simp only [resolveMatProp, hg, ht, if_true]
          exact .map (mapRefines_setKey "texture" (.scalar t) _ (mapRefines_refl pm) hg
            (.rewritten t _ (potential_of_textureUrl env _ textures ht)))
        · simp only [resolveMatProp, hg, ht, if_false]
          exact .same _
      | null => simp only [resolveMatProp, hg]; exact .same _
      | sequence xs => simp only [resolveMatProp, hg]; exact .same _
      | mapping mm => simp only [resolveMatProp, hg]; exact .same _
  | null => exact .same _
  | scalar s => exact .same _
  | sequence xs => exact .same _

theorem resolveUniformItem_refines (env : UrlEnv) (base : String) (textures : Option YamlNode) :
    ∀ e, UrlRefines e (resolveUniformItem env base textures e).1 := by
  intro e
  cases e with
  | scalar t =>
    by_cases ht : nodeIsTextureUrl env (.scalar t) textures = true
    · simp only [resolveUniformItem, ht, if_true]
      exact .rewritten t _ (potential_of_textureUrl env _ textures ht)
    · simp only [resolveUniformItem, ht, if_false]
      exact .same _
  | null => exact .same _
  | sequence xs => exact .same _
  | mapping m => exact .same _

theorem resolveUniformVal_refines (env : UrlEnv) (base : String) (textures : Option YamlNode) :
    ∀ v, UrlRefines v (resolveUniformVal env base textures v).1 := by
  intro v
  by_cases ht : nodeIsTextureUrl env v textures = true
  · cases v with
    | scalar t =>
      simp only [resolveUniformVal, ht, if_true]
      exact .rewritten t _ (potential_of_textureUrl env _ textures ht)
    | null => simp [nodeIsTextureUrl, nodeIsPotentialUrl] at ht
    | sequence xs => simp [nodeIsTextureUrl, nodeIsPotentialUrl] at ht
    | mapping m => simp [nodeIsTextureUrl, nodeIsPotentialUrl] at ht
  · simp only [resolveUniformVal, ht, if_false]
    cases v with
    | sequence xs =>
      exact .seq (mapSeqCalls_refines _ (resolveUniformItem_refines env base textures) xs)
    | null => exact .same _
    | scalar t => exact .same _
    | mapping m => exact .same _

theorem resolveMatStep_refines (env : UrlEnv) (base : String) (textures : Option YamlNode)
    (mm : NodeMap) (acc : NodeMap × List AssetCall) (p : String)
    (hacc : MapRefines mm acc.1) (hkey : getKey acc.1 p = getKey mm p) :
    MapRefines mm (resolveMatStep env base textures acc p).1 := by
  cases hg : getKey acc.1 p with
  | none => simpa [resolveMatStep, hg] using hacc
  | some v =>
    simp only [resolveMatStep, hg]
    exact mapRefines_setKey p v _ hacc (hkey.symm.trans hg)
      (resolveMatProp_refines env base textures v)

theorem resolveMatStep_getKey_ne (env : UrlEnv) (base : String) (textures : Option YamlNode)
    (acc : NodeMap × List AssetCall) (p q : String) (h : p ≠ q) :
    getKey (resolveMatStep env base textures acc p).1 q = getKey acc.1 q := by
  cases hg : getKey acc.1 p with
  | none => simp [resolveMatStep, hg]
  | some v => simp [resolveMatStep, hg, getKey_setKey_ne _ _ _ _ h]

theorem resolveMaterial_refines (env : UrlEnv) (base : String) (textures : Option YamlNode)
    (mm : NodeMap) : MapRefines mm (resolveMaterial env base textures mm).1 := by
  have r1 := resolveMatStep_refines env base textures mm (mm, []) "emission"
    (mapRefines_refl mm) rfl
  have e1 : ∀ q, "emission" ≠ q →
      getKey (resolveMatStep env base textures (mm, []) "emission").1 q = getKey mm q :=
    fun q h => resolveMatStep_getKey_ne env base textures (mm, []) "emission" q h
  have r2 := resolveMatStep_refines env base textures mm _ "ambient" r1
    (e1 "ambient" (by decide))
  have e2 : ∀ q, "emission" ≠ q → "ambient" ≠ q →
      getKey (resolveMatStep env base textures
        (resolveMatStep env base textures (mm, []) "emission") "ambient").1 q = getKey mm q :=
    fun q h1 h2 => (resolveMatStep_getKey_ne env base textures _ "ambient" q h2).trans (e1 q h1)
  have r3 := resolveMatStep_refines env base textures mm _ "diffuse" r2
    (e2 "diffuse" (by decide) (by decide))
  have e3 : ∀ q, "emission" ≠ q → "ambient" ≠ q → "diffuse" ≠ q →
      getKey (resolveMatStep env base textures (resolveMatStep env base textures
        (resolveMatStep env base textures (mm, []) "emission") "ambient") "diffuse").1 q =
        getKey mm q :=
    fun q h1 h2 h3 =>
      (resolveMatStep_getKey_ne env base textures _ "diffuse" q h3).trans (e2 q h1 h2)
  have r4 := resolveMatStep_refines env base textures mm _ "specular" r3
    (e3 "specular" (by decide) (by decide) (by decide))
  have e4 : ∀ q, "emission" ≠ q → "ambient" ≠ q → "diffuse" ≠ q → "specular" ≠ q →
      getKey (resolveMatStep env base textures (resolveMatStep env base textures
        (resolveMatStep env base textures (resolveMatStep env base textures
          (mm, []) "emission") "ambient") "diffuse") "specular").1 q = getKey mm q :=
    fun q h1 h2 h3 h4 =>
      (resolveMatStep_getKey_ne env base textures _ "specular" q h4).trans (e3 q h1 h2 h3)
  have r5 := resolveMatStep_refines env base textures mm _ "normal" r4
    (e4 "normal" (by decide) (by decide) (by decide) (by decide))
  exact r5

theorem resolveShaders_refines_pres (env : UrlEnv) (base : String) (textures : Option YamlNode)
    (sm0 sm : NodeMap) (hacc : MapRefines sm0 sm)
    (hkey : getKey sm "shaders" = getKey sm0 "shaders") :
    MapRefines sm0 (resolveShaders env base textures sm).1 := by
  cases hg : getKey sm "shaders" with
  | none => simpa [resolveShaders, hg] using hacc
  | some node =>
    cases node with
    | mapping shm =>
      cases hu : getKey shm "uniforms" with
      | none => simpa [resolveShaders, hg, hu] using hacc
      | some unode =>
        cases unode with
        | mapping um =>
          simp only [resolveShaders, hg, hu]
          refine mapRefines_setKey "shaders" (.mapping shm) _ hacc (hkey.symm.trans hg) ?_
          exact .map (mapRefines_setKey "uniforms" (.mapping um) _ (mapRefines_refl shm) hu
            (.map (mapEntriesCalls_refines _ (resolveUniformVal_refines env base textures) um)))
        | null => simpa [resolveShaders, hg, hu] using hacc
        | scalar s => simpa [resolveShaders, hg, hu] using hacc
        | sequence xs => simpa [resolveShaders, hg, hu] using hacc
    | null => simpa [resolveShaders, hg] using hacc
    | scalar s => simpa [resolveShaders, hg] using hacc
    | sequence xs => simpa [resolveShaders, hg] using hacc

theorem resolveStyleTexture_refines (env : UrlEnv) (base : String) (textures : Option YamlNode)
    (sm0 : NodeMap) : MapRefines sm0 (resolveStyleTexture env base textures sm0).1 := by
  cases hg : getKey sm0 "texture" with
  | none => simpa [resolveStyleTexture, hg] using mapRefines_refl sm0
  | some u =>
    cases u with
    | scalar t =>
      by_cases ht : nodeIsTextureUrl env (.scalar t) textures = true
      · simp only [resolveStyleTexture, hg, ht, if_true]
        exact mapRefines_setKey "texture" (.scalar t) _ (mapRefines_refl sm0) hg
          (.rewritten t _ (potential_of_textureUrl env _ textures ht))
      · simpa [resolveStyleTexture, hg, ht] using mapRefines_refl sm0
    | null => simpa [resolveStyleTexture, hg] using mapRefines_refl sm0
    | sequence xs => simpa [resolveStyleTexture, hg] using mapRefines_refl sm0
    | mapping mm => simpa [resolveStyleTexture, hg] using mapRefines_refl sm0

theorem resolveStyleTexture_getKey_ne (env : UrlEnv) (base : String)
    (textures : Option YamlNode) (sm0 : NodeMap) (q : String) (h : "texture" ≠ q) :
    getKey (resolveStyleTexture env base textures sm0).1 q = getKey sm0 q := by
  cases hg : getKey sm0 "texture" with
  | none => simp [resolveStyleTexture, hg]
  | some u =>
    cases u with
    | scalar t =>
      by_cases ht : nodeIsTextureUrl env (.scalar t) textures = true
      · simp [resolveStyleTexture, hg, ht, getKey_setKey_ne _ _ _ _ h]
      · simp [resolveStyleTexture, hg, ht]
    | null => simp [resolveStyleTexture, hg]
    | sequence xs => simp [resolveStyleTexture, hg]
    | mapping mm => simp [resolveStyleTexture, hg]

theorem resolveStyleEntry_refines (env : UrlEnv) (base : String) (textures : Option YamlNode) :
    ∀ style, UrlRefines style (resolveStyleEntry env base textures style).1 := by
  intro style
  cases style with
  | mapping sm0 =>
    have hst := resolveStyleTexture_refines env base textures sm0
    have hstk := resolveStyleTexture_getKey_ne env base textures sm0
    simp only [resolveStyleEntry]
    cases hm : getKey (resolveStyleTexture env base textures sm0).1 "material" with
    | none =>
      exact .map (resolveShaders_refines_pres env base textures sm0 _ hst
        (hstk "shaders" (by decide)))
    | some node =>
      cases node with
      | mapping mm =>
        have hmm0 : getKey sm0 "material" = some (.mapping mm) :=
          (hstk "material" (by decide)).symm.trans hm
        have hsm2 : MapRefines sm0 (setKey (resolveStyleTexture env base textures sm0).1
            "material" (.mapping (resolveMaterial env base textures mm).1)) :=
          mapRefines_setKey "material" (.mapping mm) _ hst hmm0
            (.map (resolveMaterial_refines env base textures mm))
        have hsm2k : getKey (setKey (resolveStyleTexture env base textures sm0).1 "material"
            (.mapping (resolveMaterial env base textures mm).1)) "shaders" =
            getKey sm0 "shaders" :=
          (getKey_setKey_ne _ "material" "shaders" _ (by decide)).trans
            (hstk "shaders" (by decide))
        exact .map (resolveShaders_refines_pres env base textures sm0 _ hsm2 hsm2k)
      | null => exact .map hst
      | scalar s => exact .map hst
      | sequence xs => exact .map hst
  | null => exact .same _
  | scalar s => exact .same _
  | sequence xs => exact .same _

theorem resolveSourceEntry_refines (env : UrlEnv) (base : String) :
    ∀ v, UrlRefines v (resolveSourceEntry env base v).1 := by
  intro v
  cases v with
  | mapping em =>
    cases hg : getKey em "url" with
    | none => simp only [resolveSourceEntry, hg]; exact .same _
    | some u =>
      cases u with
      | scalar s =>
        by_cases hp : nodeIsPotentialUrl (.scalar s) = true
        · simp only [resolveSourceEntry, hg, hp, if_true]
          exact .map (mapRefines_setKey "url" (.scalar s) _ (mapRefines_refl em) hg
            (.rewritten s _ hp))
        · simp only [resolveSourceEntry, hg, hp, if_false]
          exact .same _
      | null => simp only [resolveSourceEntry, hg]; exact .same _
      | sequence xs => simp only [resolveSourceEntry, hg]; exact .same _
      | mapping mm => simp only [resolveSourceEntry, hg]; exact .same _
  | null => exact .same _
  | scalar s => exact .same _
  | sequence xs => exact .same _

theorem resolveFontFace_refines (env : UrlEnv) (base : String) :
    ∀ v, UrlRefines v (resolveFontFace env base v).1 := by
  intro v
  cases v with
  | mapping fm =>
    cases hg : getKey fm "url" with
    | none => simp only [resolveFontFace, hg]; exact .same _
    | some u =>
      cases u with
      | scalar s =>
        by_cases hp : nodeIsPotentialUrl (.scalar s) = true
        · simp only [resolveFontFace, hg, hp, if_true]
          exact .map (mapRefines_setKey "url" (.scalar s) _ (mapRefines_refl fm) hg
            (.rewritten s _ hp))
        · simp only [resolveFontFace, hg, hp, if_false]
          exact .same _
      | null => simp only [resolveFontFace, hg]; exact .same _
      | sequence xs => simp only [resolveFontFace, hg]; exact .same _
      | mapping mm => simp only [resolveFontFace, hg]; exact .same _
  | null => exact .same _
  | scalar s => exact .same _
  | sequence xs => exact .same _

theorem resolveFontEntry_refines (env : UrlEnv) (base : String) :
    ∀ v, UrlRefines v (resolveFontEntry env base v).1 := by
  intro v
  cases v with
  | mapping fm => exact resolveFontFace_refines env base (.mapping fm)
  | sequence xs =>
    exact .seq (mapSeqCalls_refines _ (resolveFontFace_refines env base) xs)
  | null => exact .same _
  | scalar s => exact .same _

theorem urlRefines_mapping_inv (root0 : YamlNode) (m1 : NodeMap)
    (hacc : UrlRefines root0 (.mapping m1)) :
    ∃ m0, root0 = .mapping m0 ∧ MapRefines m0 m1 := by
  cases hacc with
  | same => exact ⟨m1, rfl, mapRefines_refl m1⟩
  | map h => exact ⟨_, rfl, h⟩

theorem sectionPass_refines_pres (key : String) (f : NodeMap → NodeMap × List AssetCall)
    (root0 cur : YamlNode) (hf : ∀ m, MapRefines m (f m).1)
    (hacc : UrlRefines root0 cur) (hkey : getKeyN cur key = getKeyN root0 key) :
    UrlRefines root0 (sectionPass key f cur).1 := by
  cases hg : getKeyN cur key with
  | none => simpa [sectionPass, hg] using hacc
  | some node =>
    cases node with
    | mapping sm =>
      cases cur with
      | mapping m1 =>
        obtain ⟨m0, hroot, hmr⟩ := urlRefines_mapping_inv root0 m1 hacc
        subst hroot
        simp only [sectionPass, hg, setKeyN]
        have hk0 : getKey m0 key = some (.mapping sm) := by
          have he : getKey m1 key = getKey m0 key := hkey
          rw [← he]
          exact hg
        exact .map (mapRefines_setKey key (.mapping sm) _ hmr hk0 (.map (hf sm)))
      | null => simp [getKeyN] at hg
      | scalar s => simp [getKeyN] at hg
      | sequence xs => simp [getKeyN] at hg
    | null => simpa [sectionPass, hg] using hacc
    | scalar s => simpa [sectionPass, hg] using hacc
    | sequence xs => simpa [sectionPass, hg] using hacc

theorem sectionPass_getKeyN_ne (key : String) (f : NodeMap → NodeMap × List AssetCall)
    (cur : YamlNode) (q : String) (h : key ≠ q) :
    getKeyN (sectionPass key f cur).1 q = getKeyN cur q := by
  cases hg : getKeyN cur key with
  | none => simp [sectionPass, hg]
  | some node =>
    cases node with
    | mapping sm =>
      cases cur with
      | mapping m1 =>
        have hg' : getKey m1 key = some (.mapping sm) := hg
        simp [sectionPass, hg, hg', setKeyN, getKeyN, getKey_setKey_ne _ _ _ _ h]
      | null => simp [getKeyN] at hg
      | scalar s => simp [getKeyN] at hg
      | sequence xs => simp [getKeyN] at hg
    | null => simp [sectionPass, hg]
    | scalar s => simp [sectionPass, hg]
    | sequence xs => simp [sectionPass, hg]

/-- The whole URL-rewriting pass only refines the root: every change is
the rewrite of a scalar that was classified as a potential URL. -/
theorem resolveSceneUrls_refines (env : UrlEnv) (base : String) (root : YamlNode) :
    UrlRefines root (resolveSceneUrls env base root).1 := by
  have h1 : UrlRefines root (resolveTextures env base root).1 :=
    sectionPass_refines_pres "textures" _ root root
      (mapEntriesCalls_refines _ (resolveTexEntry_refines env base)) (.same root) rfl
  have h1k : ∀ q, "textures" ≠ q →
      getKeyN (resolveTextures env base root).1 q = getKeyN root q :=
    fun q h => sectionPass_getKeyN_ne "textures" _ root q h
  have h2 : UrlRefines root (resolveStyles env base
      (getKeyN (resolveTextures env base root).1 "textures")
      (resolveTextures env base root).1).1 :=
    sectionPass_refines_pres "styles" _ root _
      (mapEntriesCalls_refines _ (resolveStyleEntry_refines env base _)) h1
      (h1k "styles" (by decide))
  have h2k : ∀ q, "textures" ≠ q → "styles" ≠ q →
      getKeyN (resolveStyles env base
        (getKeyN (resolveTextures env base root).1 "textures")
        (resolveTextures env base root).1).1 q = getKeyN root q :=
    fun q ha hb => (sectionPass_getKeyN_ne "styles" _ _ q hb).trans (h1k q ha)
  have h3 : UrlRefines root (resolveSources env base (resolveStyles env base
      (getKeyN (resolveTextures env base root).1 "textures")
      (resolveTextures env base root).1).1).1 :=
    sectionPass_refines_pres "sources" _ root _
      (mapEntriesCalls_refines _ (resolveSourceEntry_refines env base)) h2
      (h2k "sources" (by decide) (by decide))
  have h3k : ∀ q, "textures" ≠ q → "styles" ≠ q → "sources" ≠ q →
      getKeyN (resolveSources env base (resolveStyles env base
        (getKeyN (resolveTextures env base root).1 "textures")
        (resolveTextures env base root).1).1).1 q = getKeyN root q :=
    fun q ha hb hc => (sectionPass_getKeyN_ne "sources" _ _ q hc).trans (h2k q ha hb)
  have h4 : UrlRefines root (resolveFonts env base (resolveSources env base
      (resolveStyles env base (getKeyN (resolveTextures env base root).1 "textures")
      (resolveTextures env base root).1).1).1).1 :=
    sectionPass_refines_pres "fonts" _ root _
      (mapEntriesCalls_refines _ (resolveFontEntry_refines env base)) h3
      (h3k "fonts" (by decide) (by decide) (by decide))
  exact h4

/-- What holds of every asset-registration call made by the URL
rewriter: the call carries the current base, no zip bytes, the resolved
URL obtained from the relative one, and a relative scalar that passed
the potential-URL classification. -/
def callOk (env : UrlEnv) (base : String) (c : AssetCall) : Prop :=
  c.base = base ∧ c.zipData = [] ∧ c.resolved = env.resolve c.relative base ∧
    nodeIsPotentialUrl (.scalar c.relative) = true

/-- The stronger fact for calls made from style positions: the relative
scalar passed the texture-URL classification against `textures`. -/
def callTexOk (env : UrlEnv) (base : String) (textures : Option YamlNode) (c : AssetCall) :
    Prop :=
  callOk env base c ∧ nodeIsTextureUrl env (.scalar c.relative) textures = true

theorem mapEntriesCalls_calls (f : YamlNode → YamlNode × List AssetCall)
    (P : AssetCall → Prop) (hf : ∀ v c, c ∈ (f v).2 → P c) :
    ∀ (m : NodeMap) (c : AssetCall), c ∈ (mapEntriesCalls f m).2 → P c
  | .nil, c, h => by simp [mapEntriesCalls] at h
  | .cons k v tl, c, h => by
    simp only [mapEntriesCalls, List.mem_append] at h
    cases h with
    | inl h => exact hf v c h
    | inr h => exact mapEntriesCalls_calls f P hf tl c h

theorem mapSeqCalls_calls (f : YamlNode → YamlNode × List AssetCall)
    (P : AssetCall → Prop) (hf : ∀ v c, c ∈ (f v).2 → P c) :
    ∀ (xs : NodeSeq) (c : AssetCall), c ∈ (mapSeqCalls f xs).2 → P c
  | .nil, c, h => by simp [mapSeqCalls] at h
  | .cons v tl, c, h => by
    simp only [mapSeqCalls, List.mem_append] at h
    cases h with
    | inl h => exact hf v c h
    | inr h => exact mapSeqCalls_calls f P hf tl c h

theorem sectionPass_calls (key : String) (f : NodeMap → NodeMap × List AssetCall)
    (P : AssetCall → Prop) (hf : ∀ m c, c ∈ (f m).2 → P c) :
    ∀ (root : YamlNode) (c : AssetCall), c ∈ (sectionPass key f root).2 → P c := by
  intro root c h
  cases hg : getKeyN root key with
  | none => simp [sectionPass, hg] at h
  | some node =>
    cases node with
    | mapping sm =>
      simp only [sectionPass, hg] at h
      exact hf sm c h
    | null => simp [sectionPass, hg] at h
    | scalar s => simp [sectionPass, hg] at h
    | sequence xs => simp [sectionPass, hg] at h

theorem resolveTexEntry_calls (env : UrlEnv) (base : String) :
    ∀ v c, c ∈ (resolveTexEntry env base v).2 → callOk env base c := by
  intro v c h
  cases v with
  | mapping em =>
    cases hg : getKey em "url" with
    | none => simp [resolveTexEntry, hg] at h
    | some u =>
      cases u with
      | scalar s =>
        by_cases hp : nodeIsPotentialUrl (.scalar s) = true
        · simp only [resolveTexEntry, hg, hp, if_true, List.mem_singleton] at h
          subst h
          exact ⟨rfl, rfl, rfl, hp⟩
        · simp [resolveTexEntry, hg, hp] at h
      | null => simp [resolveTexEntry, hg] at h
      | sequence xs => simp [resolveTexEntry, hg] at h
      | mapping mm => simp [resolveTexEntry, hg] at h
  | null => simp [resolveTexEntry] at h
  | scalar s => simp [resolveTexEntry] at h
  | sequence xs => simp [resolveTexEntry] at h

theorem resolveMatProp_calls (env : UrlEnv) (base : String) (textures : Option YamlNode) :
    ∀ v c, c ∈ (resolveMatProp env base textures v).2 → callTexOk env base textures c := by
  intro v c h
  cases v with
  | mapping pm =>
    cases hg : getKey pm "texture" with
    | none => simp [resolveMatProp, hg] at h
    | some u =>
      cases u with
      | scalar t =>
        by_cases ht : nodeIsTextureUrl env (.scalar t) textures = true
        · simp only [resolveMatProp, hg, ht, if_true, List.mem_singleton] at h
          subst h
          exact ⟨⟨rfl, rfl, rfl, potential_of_textureUrl env _ textures ht⟩, ht⟩
        · simp [resolveMatProp, hg, ht] at h
      | null => simp [resolveMatProp, hg] at h
      | sequence xs => simp [resolveMatProp, hg] at h
      | mapping mm => simp [resolveMatProp, hg] at h
  | null => simp [resolveMatProp] at h
  | scalar s => simp [resolveMatProp] at h
  | sequence xs => simp [resolveMatProp] at h

theorem resolveUniformItem_calls (env : UrlEnv) (base : String) (textures : Option YamlNode) :
    ∀ v c, c ∈ (resolveUniformItem env base textures v).2 → callTexOk env base textures c := by
  intro v c h
  cases v with
  | scalar t =>
    by_cases ht : nodeIsTextureUrl env (.scalar t) textures = true
    · simp only [resolveUniformItem, ht, if_true, List.mem_singleton] at h
      subst h
      exact ⟨⟨rfl, rfl, rfl, potential_of_textureUrl env _ textures ht⟩, ht⟩
    · simp [resolveUniformItem, ht] at h
  | null => simp [resolveUniformItem] at h
  | sequence xs => simp [resolveUniformItem] at h
  | mapping m => simp [resolveUniformItem] at h

theorem resolveUniformVal_calls (env : UrlEnv) (base : String) (textures : Option YamlNode) :
    ∀ v c, c ∈ (resolveUniformVal env base textures v).2 → callTexOk env base textures c := by
  intro v c h
  by_cases ht : nodeIsTextureUrl env v textures = true
  · cases v with
    | scalar t =>
      simp only [resolveUniformVal, ht, if_true, List.mem_singleton] at h
      subst h
      exact ⟨⟨rfl, rfl, rfl, potential_of_textureUrl env _ textures ht⟩, ht⟩
    | null => simp [nodeIsTextureUrl, nodeIsPotentialUrl] at ht
    | sequence xs => simp [nodeIsTextureUrl, nodeIsPotentialUrl] at ht
    | mapping m => simp [nodeIsTextureUrl, nodeIsPotentialUrl] at ht
  · simp only [resolveUniformVal, ht, if_false] at h
    cases v with
    | sequence xs =>
      exact mapSeqCalls_calls _ _ (resolveUniformItem_calls env base textures) xs c h
    | null => simp at h
    | scalar t => simp at h
    | mapping m => simp at h

theorem resolveStyleTexture_calls (env : UrlEnv) (base : String) (textures : Option YamlNode) :
    ∀ sm0 c, c ∈ (resolveStyleTexture env base textures sm0).2 → callTexOk env base textures c := by
  intro sm0 c h
  cases hg : getKey sm0 "texture" with
  | none => simp [resolveStyleTexture, hg] at h
  | some u =>
    cases u with
    | scalar t =>
      by_cases ht : nodeIsTextureUrl env (.scalar t) textures = true
      · simp only [resolveStyleTexture, hg, ht, if_true, List.mem_singleton] at h
        subst h
        exact ⟨⟨rfl, rfl, rfl, potential_of_textureUrl env _ textures ht⟩, ht⟩
      · simp [resolveStyleTexture, hg, ht] at h
    | null => simp [resolveStyleTexture, hg] at h
    | sequence xs => simp [resolveStyleTexture, hg] at h
    | mapping mm => simp [resolveStyleTexture, hg] at h

theorem resolveMatStep_calls (env : UrlEnv) (base : String) (textures : Option YamlNode)
    (acc : NodeMap × List AssetCall) (p : String) (c : AssetCall)
    (h : c ∈ (resolveMatStep env base textures acc p).2) :
    c ∈ acc.2 ∨ callTexOk env base textures c := by
  cases hg : getKey acc.1 p with
  | none => rw [resolveMatStep, hg] at h; exact Or.inl h
  | some v =>
    simp only [resolveMatStep, hg, List.mem_append] at h
    cases h with
    | inl h => exact Or.inl h
    | inr h => exact Or.inr (resolveMatProp_calls env base textures v c h)

theorem foldl_matStep_calls (env : UrlEnv) (base : String) (textures : Option YamlNode) :
    ∀ (props : List String) (acc : NodeMap × List AssetCall) (c : AssetCall),
      c ∈ (props.foldl (resolveMatStep env base textures) acc).2 →
      c ∈ acc.2 ∨ callTexOk env base textures c
  | [], acc, c, h => Or.inl h
  | p :: rest, acc, c, h => by
    have h1 := foldl_matStep_calls env base textures rest _ c h
    cases h1 with
    | inl h1 => exact resolveMatStep_calls env base textures acc p c h1
    | inr h1 => exact Or.inr h1

theorem resolveMaterial_calls (env : UrlEnv) (base : String) (textures : Option YamlNode)
    (mm : NodeMap) (c : AssetCall) (h : c ∈ (resolveMaterial env base textures mm).2) :
    callTexOk env base textures c := by
  have h1 := foldl_matStep_calls env base textures matProps (mm, []) c h
  cases h1 with
  | inl h1 => simp at h1
  | inr h1 => exact h1

theorem resolveShaders_calls (env : UrlEnv) (base : String) (textures : Option YamlNode) :
    ∀ sm c, c ∈ (resolveShaders env base textures sm).2 → callTexOk env base textures c := by
  intro sm c h
  cases hg : getKey sm "shaders" with
  | none => simp [resolveShaders, hg] at h
  | some node =>
    cases node with
    | mapping shm =>
      cases hu : getKey shm "uniforms" with
      | none => simp [resolveShaders, hg, hu] at h
      | some unode =>
        cases unode with
        | mapping um =>
          simp only [resolveShaders, hg, hu] at h
          exact mapEntriesCalls_calls _ _ (resolveUniformVal_calls env base textures) um c h
        | null => simp [resolveShaders, hg, hu] at h
        | scalar s => simp [resolveShaders, hg, hu] at h
        | sequence xs => simp [resolveShaders, hg, hu] at h
    | null => simp [resolveShaders, hg] at h
    | scalar s => simp [resolveShaders, hg] at h
    | sequence xs => simp [resolveShaders, hg] at h

theorem resolveStyleEntry_calls (env : UrlEnv) (base : String) (textures : Option YamlNode) :
    ∀ style c, c ∈ (resolveStyleEntry env base textures style).2 →
      callTexOk env base textures c := by
  intro style c h
  cases style with
  | mapping sm0 =>
    simp only [resolveStyleEntry] at h
    cases hm : getKey (resolveStyleTexture env base textures sm0).1 "material" with
    | none =>
      simp only [hm, List.mem_append] at h
      cases h with
      | inl h => exact resolveStyleTexture_calls env base textures sm0 c h
      | inr h => exact resolveShaders_calls env base textures _ c h
    | some node =>
      cases node with
      | mapping mm =>
        simp only [hm, List.mem_append] at h
        rcases h with (h | h) | h
        · exact resolveStyleTexture_calls env base textures sm0 c h
        · exact resolveMaterial_calls env base textures mm c h
        · exact resolveShaders_calls env base textures _ c h
      | null =>
        simp only [hm] at h
        exact resolveStyleTexture_calls env base textures sm0 c h
      | scalar s =>
        simp only [hm] at h
        exact resolveStyleTexture_calls env base textures sm0 c h
      | sequence xs =>
        simp only [hm] at h
        exact resolveStyleTexture_calls env base textures sm0 c h
  | null => simp [resolveStyleEntry] at h
  | scalar s => simp [resolveStyleEntry] at h
  | sequence xs => simp [resolveStyleEntry] at h

theorem resolveSourceEntry_calls (env : UrlEnv) (base : String) :
    ∀ v, (resolveSourceEntry env base v).2 = [] := by
  intro v
  cases v with
  | mapping em =>
    cases hg : getKey em "url" with
    | none => simp [resolveSourceEntry, hg]
    | some u =>
      cases u with
      | scalar s =>
        by_cases hp : nodeIsPotentialUrl (.scalar s) = true
        · simp [resolveSourceEntry, hg, hp]
        · simp [resolveSourceEntry, hg, hp]
      | null => simp [resolveSourceEntry, hg]
      | sequence xs => simp [resolveSourceEntry, hg]
      | mapping mm => simp [resolveSourceEntry, hg]
  | null => simp [resolveSourceEntry]
  | scalar s => simp [resolveSourceEntry]
  | sequence xs => simp [resolveSourceEntry]

theorem resolveFontFace_calls (env : UrlEnv) (base : String) :
    ∀ v c, c ∈ (resolveFontFace env base v).2 → callOk env base c := by
  intro v c h
  cases v with
  | mapping fm =>
    cases hg : getKey fm "url" with
    | none => simp [resolveFontFace, hg] at h
    | some u =>
      cases u with
      | scalar s =>
        by_cases hp : nodeIsPotentialUrl (.scalar s) = true
        · simp only [resolveFontFace, hg, hp, if_true, List.mem_singleton] at h
          subst h
          exact ⟨rfl, rfl, rfl, hp⟩
        · simp [resolveFontFace, hg, hp] at h
      | null => simp [resolveFontFace, hg] at h
      | sequence xs => simp [resolveFontFace, hg] at h
      | mapping mm => simp [resolveFontFace, hg] at h
  | null => simp [resolveFontFace] at h
  | scalar s => simp [resolveFontFace] at h
  | sequence xs => simp [resolveFontFace] at h

theorem resolveFontEntry_calls (env : UrlEnv) (base : String) :
    ∀ v c, c ∈ (resolveFontEntry env base v).2 → callOk env base c := by
  intro v c h
  cases v with
  | mapping fm => exact resolveFontFace_calls env base (.mapping fm) c h
  | sequence xs =>
    exact mapSeqCalls_calls _ _ (resolveFontFace_calls env base) xs c h
  | null => simp [resolveFontEntry] at h
  | scalar s => simp [resolveFontEntry] at h

/-- Every asset-registration call made by `resolveSceneUrls` is for a
potential-URL scalar, against the current base, with no zip bytes. -/
theorem resolveSceneUrls_calls (env : UrlEnv) (base : String) (root : YamlNode)
    (c : AssetCall) (h : c ∈ (resolveSceneUrls env base root).2) : callOk env base c := by
  simp only [resolveSceneUrls, List.mem_append] at h
  rcases h with ((h | h) | h) | h
  · exact sectionPass_calls "textures" _ _
      (mapEntriesCalls_calls _ _ (resolveTexEntry_calls env base)) root c h
  · exact (sectionPass_calls "styles" _ _
      (mapEntriesCalls_calls _ _ (fun v c hc =>
        (resolveStyleEntry_calls env base _ v c hc).1)) _ c h)
  · exact sectionPass_calls "sources" _ _
      (mapEntriesCalls_calls _ _ (fun v c hc => by
        rw [resolveSourceEntry_calls env base v] at hc; simp at hc)) _ c h
  · exact sectionPass_calls "fonts" _ _
      (mapEntriesCalls_calls _ _ (resolveFontEntry_calls env base)) _ c h

/-- C6: no scalar whose string begins with `global.` is ever rewritten or
registered by `resolveSceneUrls`.  A node is classified as a potential
URL only if it is a non-null scalar not beginning with `global.`; a
refinement step can only change a potential-URL scalar, so a `global.`
scalar always survives unchanged; the whole rewriter only refines the
root; and every registered call's relative path is a non-`global.`
scalar. -/
theorem resolveSceneUrls_globals_preserved :
    (∀ n, nodeIsPotentialUrl n = true →
      ∃ s, n = .scalar s ∧ startsWithGlobalDot s = false) ∧
    (∀ (s : String) (b : YamlNode), startsWithGlobalDot s = true →
      UrlRefines (.scalar s) b → b = .scalar s) ∧
    (∀ (env : UrlEnv) (base : String) (root : YamlNode),
      UrlRefines root (resolveSceneUrls env base root).1) ∧
    (∀ (env : UrlEnv) (base : String) (root : YamlNode) (c : AssetCall),
      c ∈ (resolveSceneUrls env base root).2 → startsWithGlobalDot c.relative = false) := by
  refine ⟨?_, ?_, resolveSceneUrls_refines, ?_⟩
  · intro n h
    cases n with
    | scalar s =>
      refine ⟨s, rfl, ?_⟩
      simpa [nodeIsPotentialUrl] using h
    | null => simp [nodeIsPotentialUrl] at h
    | sequence xs => simp [nodeIsPotentialUrl] at h
    | mapping m => simp [nodeIsPotentialUrl] at h
  · intro s b hs hr
    cases hr with
    | same => rfl
    | rewritten s r hp => simp [nodeIsPotentialUrl, hs] at hp
  · intro env base root c h
    have hc := resolveSceneUrls_calls env base root c h
    simpa [nodeIsPotentialUrl] using hc.2.2.2

/-- C6 witness: a root that is the bare scalar `global.primary` passes
through the rewriter unchanged. -/
theorem resolveSceneUrls_globals_preserved_witness :
    startsWithGlobalDot "global.primary" = true ∧
    (resolveSceneUrls envId "B" (.scalar "global.primary")).1 = .scalar "global.primary" :=
  ⟨by decide,
   resolveSceneUrls_globals_preserved.2.1 "global.primary" _ (by decide)
     (resolveSceneUrls_globals_preserved.2.2.1 envId "B" (.scalar "global.primary"))⟩

theorem mapEntriesCalls_getKey (f : YamlNode → YamlNode × List AssetCall) :
    ∀ (m : NodeMap) (k : String),
      getKey (mapEntriesCalls f m).1 k = (getKey m k).map (fun v => (f v).1)
  | .nil, k => by simp [mapEntriesCalls, getKey]
  | .cons k0 v tl, k => by
    by_cases h : k0 = k <;> simp [mapEntriesCalls, getKey, h, mapEntriesCalls_getKey f tl k]

theorem mapEntriesCalls_mem_calls (f : YamlNode → YamlNode × List AssetCall) :
    ∀ (m : NodeMap) (k : String) (v : YamlNode), getKey m k = some v →
      ∀ c ∈ (f v).2, c ∈ (mapEntriesCalls f m).2
  | .nil, k, v, h => by simp [getKey] at h
  | .cons k0 v0 tl, k, v, h => by
    intro c hc
    by_cases h0 : k0 = k
    · rw [getKey, if_pos h0] at h
      injection h with h
      subst h
      simp only [mapEntriesCalls, List.mem_append]
      exact Or.inl hc
    · rw [getKey, if_neg h0] at h
      simp only [mapEntriesCalls, List.mem_append]
      exact Or.inr (mapEntriesCalls_mem_calls f tl k v h c hc)

theorem resolveShaders_getKey_ne (env : UrlEnv) (base : String) (textures : Option YamlNode)
    (sm : NodeMap) (q : String) (h : "shaders" ≠ q) :
    getKey (resolveShaders env base textures sm).1 q = getKey sm q := by
  cases hg : getKey sm "shaders" with
  | none => simp [resolveShaders, hg]
  | some node =>
    cases node with
    | mapping shm =>
      cases hu : getKey shm "uniforms" with
      | none => simp [resolveShaders, hg, hu]
      | some unode =>
        cases unode with
        | mapping um => simp [resolveShaders, hg, hu, getKey_setKey_ne _ _ _ _ h]
        | null => simp [resolveShaders, hg, hu]
        | scalar s => simp [resolveShaders, hg, hu]
        | sequence xs => simp [resolveShaders, hg, hu]
    | null => simp [resolveShaders, hg]
    | scalar s => simp [resolveShaders, hg]
    | sequence xs => simp [resolveShaders, hg]

theorem resolveShaders_at (env : UrlEnv) (base : String) (textures : Option YamlNode)
    (sm shm um : NodeMap) (hs : getKey sm "shaders" = some (.mapping shm))
    (hu : getKey shm "uniforms" = some (.mapping um)) :
    resolveShaders env base textures sm =
      (setKey sm "shaders" (.mapping (setKey shm "uniforms"
        (.mapping (mapEntriesCalls (resolveUniformVal env base textures) um).1))),
       (mapEntriesCalls (resolveUniformVal env base textures) um).2) := by
  simp [resolveShaders, hs, hu]

theorem resolveUniformVal_scalar (env : UrlEnv) (base : String) (textures : Option YamlNode)
    (t : String) :
    resolveUniformVal env base textures (.scalar t) =
      if nodeIsTextureUrl env (.scalar t) textures then
        (.scalar (env.resolve t base),
         [{ resolved := env.resolve t base, relative := t, base := base }])
      else (.scalar t, []) := by
  by_cases ht : nodeIsTextureUrl env (.scalar t) textures = true <;>
    simp [resolveUniformVal, ht]

theorem resolveMatProp_at (env : UrlEnv) (base : String) (textures : Option YamlNode)
    (pm : NodeMap) (t : String) (h : getKey pm "texture" = some (.scalar t)) :
    resolveMatProp env base textures (.mapping pm) =
      if nodeIsTextureUrl env (.scalar t) textures then
        (.mapping (setKey pm "texture" (.scalar (env.resolve t base))),
         [{ resolved := env.resolve t base, relative := t, base := base }])
      else (.mapping pm, []) := by
  by_cases ht : nodeIsTextureUrl env (.scalar t) textures = true <;>
    simp [resolveMatProp, h, ht]

theorem resolveMatStep_calls_mono (env : UrlEnv) (base : String) (textures : Option YamlNode)
    (acc : NodeMap × List AssetCall) (p : String) (c : AssetCall) (h : c ∈ acc.2) :
    c ∈ (resolveMatStep env base textures acc p).2 := by
  cases hg : getKey acc.1 p with
  | none => rw [resolveMatStep, hg]; exact h
  | some v => simp only [resolveMatStep, hg, List.mem_append]; exact Or.inl h

theorem foldl_matStep_getKey_not_mem (env : UrlEnv) (base : String)
    (textures : Option YamlNode) :
    ∀ (props : List String) (acc : NodeMap × List AssetCall) (p : String), p ∉ props →
      getKey (props.foldl (resolveMatStep env base textures) acc).1 p = getKey acc.1 p
  | [], acc, p, _ => rfl
  | q :: rest, acc, p, h => by
    have hq : q ≠ p := fun e => h (by simp [e])
    have hr : p ∉ rest := fun e => h (by simp [e])
    rw [List.foldl, foldl_matStep_getKey_not_mem env base textures rest _ p hr,
      resolveMatStep_getKey_ne env base textures acc q p hq]

theorem foldl_matStep_calls_mono2 (env : UrlEnv) (base : String)
    (textures : Option YamlNode) :
    ∀ (props : List String) (acc : NodeMap × List AssetCall) (c : AssetCall), c ∈ acc.2 →
      c ∈ (props.foldl (resolveMatStep env base textures) acc).2
  | [], _, _, h => h
  | q :: rest, acc, c, h =>
    foldl_matStep_calls_mono2 env base textures rest _ c
      (resolveMatStep_calls_mono env base textures acc q c h)

theorem foldl_matStep_at (env : UrlEnv) (base : String) (textures : Option YamlNode) :
    ∀ (props : List String) (acc : NodeMap × List AssetCall) (p : String) (pm : NodeMap),
      props.Nodup → p ∈ props → getKey acc.1 p = some (.mapping pm) →
      getKey (props.foldl (resolveMatStep env base textures) acc).1 p =
        some ((resolveMatProp env base textures (.mapping pm)).1) ∧
      ∀ c ∈ (resolveMatProp env base textures (.mapping pm)).2,
        c ∈ (props.foldl (resolveMatStep env base textures) acc).2
  | [], acc, p, pm, _, hp, _ => by simp at hp
  | q :: rest, acc, p, pm, hnd, hp, hacc => by
    rw [List.nodup_cons] at hnd
    by_cases hqp : q = p
    · subst hqp
      have hstep : resolveMatStep env base textures acc q =
          (setKey acc.1 q (resolveMatProp env base textures (.mapping pm)).1,
           acc.2 ++ (resolveMatProp env base textures (.mapping pm)).2) := by
        simp [resolveMatStep, hacc]
      constructor
      · rw [List.foldl, foldl_matStep_getKey_not_mem env base textures rest _ q hnd.1,
          hstep]
        exact getKey_setKey_self _ _ _
      · intro c hc
        rw [List.foldl]
        apply foldl_matStep_calls_mono2 env base textures rest _ c
        rw [hstep]
        simp only [List.mem_append]
        exact Or.inr hc
    · have hp' : p ∈ rest := by
        rcases List.mem_cons.mp hp with e | e
        · exact absurd e.symm hqp
        · exact e
      have hacc' : getKey (resolveMatStep env base textures acc q).1 p =
          some (.mapping pm) := by
        rw [resolveMatStep_getKey_ne env base textures acc q p hqp]
        exact hacc
      exact foldl_matStep_at env base textures rest _ p pm hnd.2 hp' hacc'

theorem resolveShaders_uniform_chase (env : UrlEnv) (base : String)
    (textures : Option YamlNode) (smX shm um : NodeMap) (u t : String)
    (hs : getKey smX "shaders" = some (.mapping shm))
    (hu : getKey shm "uniforms" = some (.mapping um))
    (hut : getKey um u = some (.scalar t)) :
    ∃ shm' um', getKey (resolveShaders env base textures smX).1 "shaders" =
        some (.mapping shm') ∧
      getKey shm' "uniforms" = some (.mapping um') ∧
      getKey um' u = some (.scalar (if nodeIsTextureUrl env (.scalar t) textures
        then env.resolve t base else t)) ∧
      (nodeIsTextureUrl env (.scalar t) textures = true →
        ({ resolved := env.resolve t base, relative := t, base := base } : AssetCall) ∈
          (resolveShaders env base textures smX).2) := by
  rw [resolveShaders_at env base textures smX shm um hs hu]
  refine ⟨_, _, getKey_setKey_self _ _ _, getKey_setKey_self _ _ _, ?_, ?_⟩
  · rw [mapEntriesCalls_getKey, hut]
    simp only [Option.map_some']
    rw [resolveUniformVal_scalar]
    by_cases ht : nodeIsTextureUrl env (.scalar t) textures = true
    · simp [ht]
    · simp [ht]
  · intro ht
    apply mapEntriesCalls_mem_calls _ um u (.scalar t) hut
    rw [resolveUniformVal_scalar]
    simp [ht]

theorem resolveStyleEntry_texture_at (env : UrlEnv) (base : String)
    (textures : Option YamlNode) (sm : NodeMap) (t : String)
    (h : getKey sm "texture" = some (.scalar t)) :
    getKeyN (resolveStyleEntry env base textures (.mapping sm)).1 "texture" =
      some (.scalar (if nodeIsTextureUrl env (.scalar t) textures
        then env.resolve t base else t)) ∧
    (nodeIsTextureUrl env (.scalar t) textures = true →
      ({ resolved := env.resolve t base, relative := t, base := base } : AssetCall) ∈
        (resolveStyleEntry env base textures (.mapping sm)).2) := by
  have hv : getKey (resolveStyleTexture env base textures sm).1 "texture" =
      some (.scalar (if nodeIsTextureUrl env (.scalar t) textures
        then env.resolve t base else t)) := by
    by_cases ht : nodeIsTextureUrl env (.scalar t) textures = true <;>
      simp [resolveStyleTexture, h, ht, getKey_setKey_self]
  have hcall : nodeIsTextureUrl env (.scalar t) textures = true →
      ({ resolved := env.resolve t base, relative := t, base := base } : AssetCall) ∈
        (resolveStyleTexture env base textures sm).2 := by
    intro ht
    simp [resolveStyleTexture, h, ht]
  simp only [resolveStyleEntry]
  cases hm : getKey (resolveStyleTexture env base textures sm).1 "material" with
  | none =>
    refine ⟨?_, fun ht => List.mem_append_left _ (hcall ht)⟩
    show getKey (resolveShaders env base textures
      (resolveStyleTexture env base textures sm).1).1 "texture" = _
    rw [resolveShaders_getKey_ne env base textures _ "texture" (by decide)]
    exact hv
  | some node =>
    cases node with
    | mapping mm =>
      constructor
      · show getKey (resolveShaders env base textures
          (setKey (resolveStyleTexture env base textures sm).1 "material"
            (.mapping (resolveMaterial env base textures mm).1))).1 "texture" = _
        rw [resolveShaders_getKey_ne env base textures _ "texture" (by decide),
          getKey_setKey_ne _ _ _ _ (by decide)]
        exact hv
      · intro ht
        exact List.mem_append_left _ (List.mem_append_left _ (hcall ht))
    | null => exact ⟨hv, hcall⟩
    | scalar s => exact ⟨hv, hcall⟩
    | sequence xs => exact ⟨hv, hcall⟩

theorem resolveStyleEntry_material_at (env : UrlEnv) (base : String)
    (textures : Option YamlNode) (sm mm pm : NodeMap) (p t : String)
    (hm : getKey sm "material" = some (.mapping mm)) (hp : p ∈ matProps)
    (hpm : getKey mm p = some (.mapping pm))
    (ht : getKey pm "texture" = some (.scalar t)) :
    ∃ mm' pm', getKeyN (resolveStyleEntry env base textures (.mapping sm)).1 "material" =
        some (.mapping mm') ∧
      getKey mm' p = some (.mapping pm') ∧
      getKey pm' "texture" = some (.scalar (if nodeIsTextureUrl env (.scalar t) textures
        then env.resolve t base else t)) ∧
      (nodeIsTextureUrl env (.scalar t) textures = true →
        ({ resolved := env.resolve t base, relative := t, base := base } : AssetCall) ∈
          (resolveStyleEntry env base textures (.mapping sm)).2) := by
  have hm1 : getKey (resolveStyleTexture env base textures sm).1 "material" =
      some (.mapping mm) := by
    rw [resolveStyleTexture_getKey_ne env base textures sm "material" (by decide)]
    exact hm
  have hfold := foldl_matStep_at env base textures matProps (mm, []) p pm
    (by decide) hp hpm
  simp only [resolveStyleEntry, hm1]
  refine ⟨(resolveMaterial env base textures mm).1,
    (if nodeIsTextureUrl env (.scalar t) textures
      then setKey pm "texture" (.scalar (env.resolve t base)) else pm), ?_, ?_, ?_, ?_⟩
  · show getKey (resolveShaders env base textures
      (setKey (resolveStyleTexture env base textures sm).1 "material"
        (.mapping (resolveMaterial env base textures mm).1))).1 "material" = _
    rw [resolveShaders_getKey_ne env base textures _ "material" (by decide)]
    exact getKey_setKey_self _ _ _
  · have := hfold.1
    rw [resolveMatProp_at env base textures pm t ht] at this
    by_cases hg : nodeIsTextureUrl env (.scalar t) textures = true
    · simp only [hg, if_true] at this ⊢
      exact this
    · simp only [hg, if_false] at this ⊢
      exact this
  · by_cases hg : nodeIsTextureUrl env (.scalar t) textures = true
    · simp only [hg, if_true]
      exact getKey_setKey_self _ _ _
    · simp only [hg, if_false]
      exact ht
  · intro hg
    have hmem : ({ resolved := env.resolve t base, relative := t, base := base } : AssetCall) ∈
        (resolveMaterial env base textures mm).2 := by
      apply hfold.2
      rw [resolveMatProp_at env base textures pm t ht]
      simp [hg]
    exact List.mem_append_left _ (List.mem_append_right _ hmem)

theorem resolveStyleEntry_uniform_at (env : UrlEnv) (base : String)
    (textures : Option YamlNode) (sm shm um : NodeMap) (u t : String)
    (hmat : getKey sm "material" = none ∨
      ∃ mm, getKey sm "material" = some (.mapping mm))
    (hs : getKey sm "shaders" = some (.mapping shm))
    (hu : getKey shm "uniforms" = some (.mapping um))
    (hut : getKey um u = some (.scalar t)) :
    ∃ shm' um', getKeyN (resolveStyleEntry env base textures (.mapping sm)).1 "shaders" =
        some (.mapping shm') ∧
      getKey shm' "uniforms" = some (.mapping um') ∧
      getKey um' u = some (.scalar (if nodeIsTextureUrl env (.scalar t) textures
        then env.resolve t base else t)) ∧
      (nodeIsTextureUrl env (.scalar t) textures = true →
        ({ resolved := env.resolve t base, relative := t, base := base } : AssetCall) ∈
          (resolveStyleEntry env base textures (.mapping sm)).2) := by
  have hstk := resolveStyleTexture_getKey_ne env base textures sm
  cases hmat with
  | inl hnone =>
    have hm1 : getKey (resolveStyleTexture env base textures sm).1 "material" = none := by
      rw [hstk "material" (by decide)]; exact hnone
    have hs1 : getKey (resolveStyleTexture env base textures sm).1 "shaders" =
        some (.mapping shm) := by
      rw [hstk "shaders" (by decide)]; exact hs
    obtain ⟨shm', um', h1, h2, h3, h4⟩ :=
      resolveShaders_uniform_chase env base textures _ shm um u t hs1 hu hut
    simp only [resolveStyleEntry, hm1]
    exact ⟨shm', um', h1, h2, h3, fun hg => List.mem_append_right _ (h4 hg)⟩
  | inr hmm =>
    obtain ⟨mm, hmm⟩ := hmm
    have hm1 : getKey (resolveStyleTexture env base textures sm).1 "material" =
        some (.mapping mm) := by
      rw [hstk "material" (by decide)]; exact hmm
    have hs2 : getKey (setKey (resolveStyleTexture env base textures sm).1 "material"
        (.mapping (resolveMaterial env base textures mm).1)) "shaders" =
        some (.mapping shm) := by
      rw [getKey_setKey_ne _ _ _ _ (by decide), hstk "shaders" (by decide)]
      exact hs
    obtain ⟨shm', um', h1, h2, h3, h4⟩ :=
      resolveShaders_uniform_chase env base textures _ shm um u t hs2 hu hut
    simp only [resolveStyleEntry, hm1]
    exact ⟨shm', um', h1, h2, h3, fun hg => List.mem_append_right _ (h4 hg)⟩

/-- Concrete external environment used to exhibit rewrites: resolution
prepends the base, so a rewritten scalar is visibly changed; no scalar
decodes as bool or number. -/
def envR : UrlEnv := ⟨fun s b => b ++ s, fun _ => true, id, fun _ => false, fun _ => false⟩

def rootC5A : YamlNode :=
  .mapping (nmap
    [("textures", .mapping (nmap [("t", .mapping (nmap [("url", .scalar "p.png")]))])),
     ("styles", .mapping (nmap [("s", .mapping (nmap [("texture", .scalar "t")]))]))])

def rootC5X : YamlNode :=
  .mapping (nmap
    [("styles", .mapping (nmap [("s", .mapping (nmap
      [("material", .scalar "m"),
       ("shaders", .mapping (nmap [("uniforms",
          .mapping (nmap [("u", .scalar "tex.png")]))]))]))]))])

/-- C5 counterexample: in a style whose `material` value is the scalar
`m` (not a mapping), the shader uniform `u` holds `tex.png`, which *is*
a texture URL, yet `resolveSceneUrls` leaves the document unchanged and
registers nothing: the `continue` on the non-mapping material skips the
shaders pass, so the claimed "if and only if" fails in the "if"
direction. -/
theorem resolveSceneUrls_uniform_skipped :
    nodeIsTextureUrl envR (.scalar "tex.png") none = true ∧
    resolveSceneUrls envR "B/" rootC5X = (rootC5X, []) := ⟨by decide, rfl⟩

/-- C5 amended: a scalar at a style's `texture`, `material.*.texture` or
`shaders.uniforms` position is rewritten to the resolved URL and
registered as an asset if and only if it is a texture URL — provided
that, for the uniforms position, the style's `material` value (when
present) is a mapping; a non-mapping material skips the rest of that
style entry.  Conjuncts: the concrete texture-name scenario (a scalar
naming an existing texture stays unchanged with no asset registered for
it); every style call is a texture URL (the "only if" direction for
registration); and the three positional "if" directions. -/
theorem resolveStyleEntry_texture_url_iff :
    (resolveSceneUrls envR "B/" rootC5A =
      (.mapping (nmap
        [("textures", .mapping (nmap [("t", .mapping (nmap [("url", .scalar "B/p.png")]))])),
         ("styles", .mapping (nmap [("s", .mapping (nmap [("texture", .scalar "t")]))]))]),
       [{ resolved := "B/p.png", relative := "p.png", base := "B/" }])) ∧
    (∀ (env : UrlEnv) (base : String) (textures : Option YamlNode) (style : YamlNode)
        (c : AssetCall), c ∈ (resolveStyleEntry env base textures style).2 →
      callTexOk env base textures c) ∧
    (∀ (env : UrlEnv) (base : String) (textures : Option YamlNode) (sm : NodeMap)
        (t : String), getKey sm "texture" = some (.scalar t) →
      getKeyN (resolveStyleEntry env base textures (.mapping sm)).1 "texture" =
        some (.scalar (if nodeIsTextureUrl env (.scalar t) textures
          then env.resolve t base else t)) ∧
      (nodeIsTextureUrl env (.scalar t) textures = true →
        ({ resolved := env.resolve t base, relative := t, base := base } : AssetCall) ∈
          (resolveStyleEntry env base textures (.mapping sm)).2)) ∧
    (∀ (env : UrlEnv) (base : String) (textures : Option YamlNode) (sm mm pm : NodeMap)
        (p t : String), getKey sm "material" = some (.mapping mm) → p ∈ matProps →
      getKey mm p = some (.mapping pm) → getKey pm "texture" = some (.scalar t) →
      ∃ mm' pm', getKeyN (resolveStyleEntry env base textures (.mapping sm)).1 "material" =
          some (.mapping mm') ∧
        getKey mm' p = some (.mapping pm') ∧
        getKey pm' "texture" = some (.scalar (if nodeIsTextureUrl env (.scalar t) textures
          then env.resolve t base else t)) ∧
        (nodeIsTextureUrl env (.scalar t) textures = true →
          ({ resolved := env.resolve t base, relative := t, base := base } : AssetCall) ∈
            (resolveStyleEntry env base textures (.mapping sm)).2)) ∧
    (∀ (env : UrlEnv) (base : String) (textures : Option YamlNode) (sm shm um : NodeMap)
        (u t : String),
      (getKey sm "material" = none ∨ ∃ mm, getKey sm "material" = some (.mapping mm)) →
      getKey sm "shaders" = some (.mapping shm) →
      getKey shm "uniforms" = some (.mapping um) → getKey um u = some (.scalar t) →
      ∃ shm' um', getKeyN (resolveStyleEntry env base textures (.mapping sm)).1 "shaders" =
          some (.mapping shm') ∧
        getKey shm' "uniforms" = some (.mapping um') ∧
        getKey um' u = some (.scalar (if nodeIsTextureUrl env (.scalar t) textures
          then env.resolve t base else t)) ∧
        (nodeIsTextureUrl env (.scalar t) textures = true →
          ({ resolved := env.resolve t base, relative := t, base := base } : AssetCall) ∈
            (resolveStyleEntry env base textures (.mapping sm)).2)) :=
  ⟨rfl, resolveStyleEntry_calls,
   fun env base textures sm t h => resolveStyleEntry_texture_at env base textures sm t h,
   fun env base textures sm mm pm p t hm hp hpm ht =>
     resolveStyleEntry_material_at env base textures sm mm pm p t hm hp hpm ht,
   fun env base textures sm shm um u t hmat hs hu hut =>
     resolveStyleEntry_uniform_at env base textures sm shm um u t hmat hs hu hut⟩

/-- C5 witness: the texture-position statement applied to a style whose
`texture` is the texture URL `x.png` — the scalar is rewritten to the
resolved URL and the corresponding asset call is made. -/
theorem resolveStyleEntry_texture_url_iff_witness :
    getKeyN (resolveStyleEntry envR "B/" none
        (.mapping (nmap [("texture", .scalar "x.png")]))).1 "texture" =
      some (.scalar "B/x.png") ∧
    ({ resolved := "B/x.png", relative := "x.png", base := "B/" } : AssetCall) ∈
      (resolveStyleEntry envR "B/" none (.mapping (nmap [("texture", .scalar "x.png")]))).2 :=
  have h := resolveStyleEntry_texture_url_iff.2.2.1 envR "B/" none
    (nmap [("texture", .scalar "x.png")]) "x.png" rfl
  ⟨h.1.trans rfl, h.2 (by decide)⟩

theorem importSeqUrls_zipData (env : UrlEnv) (base : String) :
    ∀ (xs : NodeSeq) (c : AssetCall), c ∈ (importSeqUrls env base xs).2 → c.zipData = []
  | .nil, c, h => by simp [importSeqUrls] at h
  | .cons hd tl, c, h => by
    cases hd with
    | scalar s =>
      simp only [importSeqUrls, List.mem_cons] at h
      cases h with
      | inl h => rw [h]
      | inr h => exact importSeqUrls_zipData env base tl c h
    | null => exact importSeqUrls_zipData env base tl c h
    | sequence ys => exact importSeqUrls_zipData env base tl c h
    | mapping m => exact importSeqUrls_zipData env base tl c h

theorem getResolvedImportUrls_zipData (env : UrlEnv) (scene : YamlNode) (base : String)
    (c : AssetCall) (h : c ∈ (getResolvedImportUrls env scene base).2) : c.zipData = [] := by
  cases hg : getKeyN scene "import" with
  | none => simp [getResolvedImportUrls, hg] at h
  | some node =>
    cases node with
    | scalar s =>
      simp only [getResolvedImportUrls, hg, List.mem_singleton] at h
      rw [h]
    | sequence xs =>
      simp only [getResolvedImportUrls, hg] at h
      exact importSeqUrls_zipData env base xs c h
    | null => simp [getResolvedImportUrls, hg] at h
    | mapping m => simp [getResolvedImportUrls, hg] at h

/-- C8: a `createSceneAsset` call with a non-empty base and a relative
(non-absolute) path and empty zip bytes inserts an asset that receives
the `ZipHandle` of the registry entry for `base` by identity (same
handle identity ⇒ same shared object), and every such call made by
the importer's rewriting and import-listing code passes empty zip
bytes. -/
theorem createSceneAsset_shares_parent_handle :
    (∀ (openOk : List Nat → Bool) (isAbs : String → Bool) (sa : SceneAssets)
        (resolved relative base : String) (parent : AssetRec),
      assetsGet sa.entries resolved = none → base ≠ "" → isAbs relative = false →
      assetsGet sa.entries base = some parent →
      createSceneAsset openOk isAbs sa resolved relative base [] =
        some ⟨sa.entries ++ [(resolved, ⟨resolved, relative, parent.zipHandle⟩)],
          sa.nextHandle + 1⟩) ∧
    (∀ (env : UrlEnv) (base : String) (root : YamlNode) (c : AssetCall),
      c ∈ (resolveSceneUrls env base root).2 → c.zipData = []) ∧
    (∀ (env : UrlEnv) (scene : YamlNode) (base : String) (c : AssetCall),
      c ∈ (getResolvedImportUrls env scene base).2 → c.zipData = []) := by
  refine ⟨?_, ?_, getResolvedImportUrls_zipData⟩
  · intro openOk isAbs sa resolved relative base parent h1 h2 h3 h4
    simp [createSceneAsset, h1, h2, h3, h4, mkAsset]
  · intro env base root c h
    exact (resolveSceneUrls_calls env base root c h).2.1

/-- C8 witness: a child asset created inside the bundle of `base.zip`
receives the parent's handle identity 7. -/
theorem createSceneAsset_shares_parent_handle_witness :
    createSceneAsset (fun _ => false) (fun _ => false)
      ⟨[("base.zip", ⟨"base.zip", "", some 7⟩)], 8⟩ "child" "sub/c.yaml" "base.zip" [] =
      some ⟨[("base.zip", ⟨"base.zip", "", some 7⟩),
             ("child", ⟨"child", "sub/c.yaml", some 7⟩)], 9⟩ :=
  createSceneAsset_shares_parent_handle.1 (fun _ => false) (fun _ => false)
    ⟨[("base.zip", ⟨"base.zip", "", some 7⟩)], 8⟩ "child" "sub/c.yaml" "base.zip"
    ⟨"base.zip", "", some 7⟩ rfl (by decide) rfl rfl
